import Mathlib

/-!
# Verification of `scripts/merge_csv.py`

A shallow embedding of the CSV-merging script.  The script scans a directory,
selects filenames ending in `".csv"`, parses each into a table, skips tables
without a `"Source"` column, folds the remaining tables with a pandas-style
outer join on `"Source"`, fills absent cells with the string `"N/A"`, reorders
columns so that `"Source"` comes first followed by the remaining column names
in ascending order, serializes the result as CSV text and prints messages.

Cells are modelled as `Option String`: `none` is an absent (NaN) cell created
by the outer join, `some v` is a present textual value.  The external tabular
library is modelled relationally on textual cells, following the data model of
the design document (values are rendered as text in the final CSV).
-/

namespace MergeCsv

/-- A cell of a table: `none` models an absent (NaN) value. -/
abbrev Cell := Option String

/-- A table: a list of column names and rows of cells aligned positionally. -/
structure Table where
  cols : List String
  rows : List (List Cell)
  deriving Repr, DecidableEq

/-- Split a list of characters on a separator character.  Always returns at
least one (possibly empty) field. -/
def splitOnChar (sep : Char) : List Char → List (List Char)
  | [] => [[]]
  | c :: cs =>
    if c = sep then [] :: splitOnChar sep cs
    else
      match splitOnChar sep cs with
      | [] => [[c]]
      | f :: rest => (c :: f) :: rest

/-- Split a string into fields on a separator character. -/
def fields (sep : Char) (s : String) : List String :=
  (splitOnChar sep s.data).map (fun cs => String.mk cs)

/-- Embedding of `pd.read_csv`: the first line is the header, every further
non-empty line is a row of present cells. -/
def read_csv (text : String) : Table :=
  match fields '\n' text with
  | [] => ⟨[], []⟩
  | header :: rest =>
    ⟨fields ',' header,
     (rest.filter (fun l => l ≠ "")).map (fun l => (fields ',' l).map some)⟩

/-- The cell of a row at the first column named `c`, `none` if the column does
not exist or the row is too short. -/
def cellAt (cols : List String) (row : List Cell) (c : String) : Cell :=
  match cols, row with
  | [], _ => none
  | _ :: _, [] => none
  | d :: ds, x :: xs => if d = c then x else cellAt ds xs c

/-- The join-key cell of a row: the cell of the `"Source"` column. -/
def keyOf (cols : List String) (row : List Cell) : Cell :=
  cellAt cols row "Source"

/-- The cells of a row at the non-key columns, positionally. -/
def nonKeyCells (cols : List String) (row : List Cell) : List Cell :=
  ((cols.zip row).filter (fun p => p.1 ≠ "Source")).map (fun p => p.2)

/-- Embedding of `pd.merge(l, r, on='Source', how='outer')`.  Columns: the
left columns (a non-key name also present on the right is suffixed `"_x"`),
then the right non-key columns (suffixed `"_y"` when also present on the
left).  Rows: each left row combined with every right row of equal key, or
padded with absent cells when the right has no such key; then every right row
whose key no left row has, with the left columns absent except the key. -/
def merge (l r : Table) : Table :=
  let lcols := l.cols.map (fun c =>
    if c ≠ "Source" ∧ c ∈ r.cols then c ++ "_x" else c)
  let rNoKey := r.cols.filter (fun c => c ≠ "Source")
  let rcols := rNoKey.map (fun c => if c ∈ l.cols then c ++ "_y" else c)
  let leftRows := l.rows.flatMap (fun lrow =>
    match r.rows.filter (fun rrow => keyOf r.cols rrow = keyOf l.cols lrow) with
    | [] => [lrow ++ rNoKey.map (fun _ => (none : Cell))]
    | ms => ms.map (fun rrow => lrow ++ nonKeyCells r.cols rrow))
  let rightRows := (r.rows.filter (fun rrow =>
      !(l.rows.any (fun lrow => keyOf l.cols lrow == keyOf r.cols rrow)))).map
    (fun rrow =>
      l.cols.map (fun c => if c = "Source" then keyOf r.cols rrow else none)
        ++ nonKeyCells r.cols rrow)
  ⟨lcols ++ rcols, leftRows ++ rightRows⟩

/-- Embedding of `merged_df.fillna('N/A')`: every absent cell becomes the
present string `"N/A"`. -/
def fillna (t : Table) : Table :=
  ⟨t.cols, t.rows.map (fun row => row.map (fun x => some (x.getD "N/A")))⟩

/-- Lexicographic strict comparison of character lists, as Python compares
strings. -/
def strLt : List Char → List Char → Bool
  | [], [] => false
  | [], _ :: _ => true
  | _ :: _, [] => false
  | a :: as, b :: bs =>
    if a < b then true else if b < a then false else strLt as bs

/-- Insert a string into a list, before the first strictly greater element. -/
def insertSorted (x : String) : List String → List String
  | [] => [x]
  | y :: ys => if strLt x.data y.data then x :: y :: ys else y :: insertSorted x ys

/-- Sort a list of strings in ascending order, as Python `sorted`. -/
def sortStrings : List String → List String
  | [] => []
  | x :: xs => insertSorted x (sortStrings xs)

/-- Embedding of the `column_order` computation: `"Source"` first, then the
remaining column names sorted in ascending order. -/
def column_order (cols : List String) : List String :=
  "Source" :: sortStrings (cols.filter (fun c => c ≠ "Source"))

/-- Embedding of `merged_df[column_order]`: reindex the table by the computed
column order. -/
def reindex (t : Table) : Table :=
  let order := column_order t.cols
  ⟨order, t.rows.map (fun row => order.map (fun c => cellAt t.cols row c))⟩

/-- Join a list of strings with a separator. -/
def joinSep (sep : String) : List String → String
  | [] => ""
  | [a] => a
  | a :: b :: rest => a ++ sep ++ joinSep sep (b :: rest)

/-- Embedding of `merged_df.to_csv(OUTPUT_FILE, index=False)`: the header line
followed by one comma-separated line per row, with no index column. -/
def to_csv (t : Table) : String :=
  joinSep "\n"
    (joinSep "," t.cols ::
      t.rows.map (fun row => joinSep "," (row.map (fun x => x.getD ""))))

/-- The diagnostic printed for a file lacking a `"Source"` column. -/
def skipMessage (filename : String) : String :=
  "'Source' column not found in " ++ filename ++ ". Skipping this file."

/-- The completion message printed at the end of a run. -/
def completionMessage : String :=
  "Merging complete! The output file is 'latency_matrix.csv'."

/-- Embedding of Python's `filename.endswith(suffix)`: a case-sensitive
suffix match on characters. -/
def strEndsWith (s suffix : String) : Bool :=
  suffix.data.isSuffixOf s.data

/-- A directory entry: a filename and the file's textual content. -/
structure DirEntry where
  name : String
  content : String
  deriving Repr, DecidableEq

/-- One iteration of the loop body: the state is the optional accumulated
table together with the messages printed so far. -/
def step (st : Option Table × List String) (e : DirEntry) :
    Option Table × List String :=
  if strEndsWith e.name ".csv" then
    let df := read_csv e.content
    if "Source" ∈ df.cols then
      match st.1 with
      | none => (some df, st.2)
      | some acc => (some (merge acc df), st.2)
    else (st.1, st.2 ++ [skipMessage e.name])
  else st

/-- The whole loop over the directory listing. -/
def scanDirectory (entries : List DirEntry) : Option Table × List String :=
  entries.foldl step (none, [])

/-- The whole run: `none` models the unhandled `AttributeError` raised by
`None.fillna` when no qualifying file was found (no output is written);
otherwise the serialized output text together with the printed messages. -/
def run (entries : List DirEntry) : Option (String × List String) :=
  match scanDirectory entries with
  | (none, _) => none
  | (some t, msgs) =>
    some (to_csv (reindex (fillna t)), msgs ++ [completionMessage])

/-- Folding a list of already-qualifying tables, as the loop does. -/
def mergeAll (ts : List Table) : Option Table :=
  ts.foldl (fun acc t =>
    match acc with
    | none => some t
    | some a => some (merge a t)) none

/-- The tables of the qualifying files of a directory listing: name ends in
`".csv"` and the parsed table has a `"Source"` column. -/
def qualifyingTables (entries : List DirEntry) : List Table :=
  ((entries.filter (fun e => strEndsWith e.name ".csv")).map
    (fun e => read_csv e.content)).filter (fun t => "Source" ∈ t.cols)

/-- The key cells of a table, row by row. -/
def Table.keyList (t : Table) : List Cell :=
  t.rows.map (keyOf t.cols)

/-- The cell of the (first) row whose key is `some k`, at column `c`. -/
def Table.lookup (t : Table) (k c : String) : Cell :=
  match t.rows.find? (fun r => keyOf t.cols r = some k) with
  | some r => cellAt t.cols r c
  | none => none

/-- Well-formedness of an input table, as produced by `read_csv` from a CSV
file whose rows are aligned with the header and whose `"Source"` values are
the unique row identities: rows have the header's width, column names are
distinct, a `"Source"` column exists, every cell is present, and the key
cells are pairwise distinct. -/
structure Table.Wf (t : Table) : Prop where
  aligned : ∀ r ∈ t.rows, r.length = t.cols.length
  colsNodup : t.cols.Nodup
  sourceMem : "Source" ∈ t.cols
  cellsPresent : ∀ r ∈ t.rows, ∀ x ∈ r, x ≠ none
  keysNodup : t.keyList.Nodup

/-- No two tables of the list share a non-key column name. -/
abbrev DisjointCols (ts : List Table) : Prop :=
  ts.Pairwise (fun a b => ∀ c ∈ a.cols, c ∈ b.cols → c = "Source")

/-- No cell of the table holds the literal string `"N/A"`. -/
abbrev Table.NoNA (t : Table) : Prop :=
  ∀ r ∈ t.rows, ∀ x ∈ r, x ≠ some "N/A"

/-! ## Lemmas about `cellAt` -/

theorem cellAt_nil_left (row : List Cell) (c : String) :
    cellAt [] row c = none := rfl

theorem cellAt_cons (d : String) (ds : List String) (x : Cell) (xs : List Cell)
    (c : String) :
    cellAt (d :: ds) (x :: xs) c = if d = c then x else cellAt ds xs c := rfl

theorem cellAt_nil_right (cols : List String) (c : String) :
    cellAt cols [] c = none := by
  cases cols <;> rfl

theorem cellAt_append_left {cols₁ : List String} {row₁ : List Cell}
    (cols₂ : List String) (row₂ : List Cell) {c : String}
    (hlen : row₁.length = cols₁.length) (hc : c ∈ cols₁) :
    cellAt (cols₁ ++ cols₂) (row₁ ++ row₂) c = cellAt cols₁ row₁ c := by
  induction cols₁ generalizing row₁ with
  | nil => cases hc
  | cons d ds ih =>
    cases row₁ with
    | nil => simp at hlen
    | cons x xs =>
      simp only [List.cons_append, cellAt_cons]
      by_cases hdc : d = c
      · simp [hdc]
      · have hc' : c ∈ ds := by
          cases List.mem_cons.mp hc with
          | inl h => exact absurd h.symm hdc
          | inr h => exact h
        simp only [hdc, if_false]
        exact ih (by simpa using hlen) hc'

theorem cellAt_append_right {cols₁ : List String} {row₁ : List Cell}
    (cols₂ : List String) (row₂ : List Cell) {c : String}
    (hlen : row₁.length = cols₁.length) (hc : c ∉ cols₁) :
    cellAt (cols₁ ++ cols₂) (row₁ ++ row₂) c = cellAt cols₂ row₂ c := by
  induction cols₁ generalizing row₁ with
  | nil =>
    cases row₁ with
    | nil => rfl
    | cons x xs => simp at hlen
  | cons d ds ih =>
    cases row₁ with
    | nil => simp at hlen
    | cons x xs =>
      have hdc : d ≠ c := fun h => hc (h ▸ List.mem_cons_self d ds)
      simp only [List.cons_append, cellAt_cons, hdc, if_false]
      exact ih (by simpa using hlen) (fun h => hc (List.mem_cons_of_mem d h))

theorem cellAt_map_cols {cols : List String} {c : String} (f : String → Cell)
    (hc : c ∈ cols) :
    cellAt cols (cols.map f) c = f c := by
  induction cols with
  | nil => cases hc
  | cons d ds ih =>
    simp only [List.map_cons, cellAt_cons]
    by_cases hdc : d = c
    · simp [hdc]
    · have hc' : c ∈ ds := by
        cases List.mem_cons.mp hc with
        | inl h => exact absurd h.symm hdc
        | inr h => exact h
      simp [hdc, ih hc']

theorem cellAt_map_row {cols : List String} {row : List Cell} {c : String}
    (g : Cell → Cell) (hlen : row.length = cols.length) (hc : c ∈ cols) :
    cellAt cols (row.map g) c = g (cellAt cols row c) := by
  induction cols generalizing row with
  | nil => cases hc
  | cons d ds ih =>
    cases row with
    | nil => simp at hlen
    | cons x xs =>
      simp only [List.map_cons, cellAt_cons]
      by_cases hdc : d = c
      · simp [hdc]
      · have hc' : c ∈ ds := by
          cases List.mem_cons.mp hc with
          | inl h => exact absurd h.symm hdc
          | inr h => exact h
        simp [hdc, ih (by simpa using hlen) hc']

theorem cellAt_eq_none_of_not_mem {cols : List String} {row : List Cell}
    {c : String} (hc : c ∉ cols) : cellAt cols row c = none := by
  induction cols generalizing row with
  | nil => exact cellAt_nil_left row c
  | cons d ds ih =>
    cases row with
    | nil => exact cellAt_nil_right _ _
    | cons x xs =>
      have hdc : d ≠ c := fun h => hc (h ▸ List.mem_cons_self d ds)
      simp only [cellAt_cons, hdc, if_false]
      exact ih (fun h => hc (List.mem_cons_of_mem d h))

/-- Looking up a non-key column in the non-key cells of a row gives the same
cell as looking it up in the full row. -/
theorem cellAt_nonKeyCells {cols : List String} {row : List Cell} {c : String}
    (hc : c ≠ "Source") :
    cellAt (cols.filter (fun c => c ≠ "Source")) (nonKeyCells cols row) c =
      cellAt cols row c := by
  induction cols generalizing row with
  | nil => rfl
  | cons d ds ih =>
    cases row with
    | nil =>
      have h0 : nonKeyCells (d :: ds) ([] : List Cell) = [] := rfl
      rw [h0, cellAt_nil_right, cellAt_nil_right]
    | cons x xs =>
      by_cases hd : d = "Source"
      · subst hd
        have h1 : nonKeyCells ("Source" :: ds) (x :: xs) = nonKeyCells ds xs := by
          simp [nonKeyCells]
        have h2 : ("Source" :: ds).filter (fun c => c ≠ "Source") =
            ds.filter (fun c => c ≠ "Source") := by
          simp [List.filter_cons]
        rw [h1, h2, ih, cellAt_cons, if_neg (Ne.symm hc)]
      · have h1 : nonKeyCells (d :: ds) (x :: xs) = x :: nonKeyCells ds xs := by
          simp [nonKeyCells, List.filter_cons, hd]
        have h2 : (d :: ds).filter (fun c => c ≠ "Source") =
            d :: ds.filter (fun c => c ≠ "Source") := by
          simp [List.filter_cons, hd]
        rw [h1, h2, cellAt_cons, cellAt_cons]
        by_cases hdc : d = c
        · rw [if_pos hdc, if_pos hdc]
        · rw [if_neg hdc, if_neg hdc, ih]

/-- The non-key cells of an aligned row are aligned with the non-key
columns. -/
theorem length_nonKeyCells {cols : List String} {row : List Cell}
    (hlen : row.length = cols.length) :
    (nonKeyCells cols row).length = (cols.filter (fun c => c ≠ "Source")).length := by
  induction cols generalizing row with
  | nil => cases row with
    | nil => rfl
    | cons x xs => simp at hlen
  | cons d ds ih =>
    cases row with
    | nil => simp at hlen
    | cons x xs =>
      have hrec := ih (show xs.length = ds.length by simpa using hlen)
      by_cases hd : d = "Source"
      · have h1 : nonKeyCells (d :: ds) (x :: xs) = nonKeyCells ds xs := by
          simp [nonKeyCells, hd]
        rw [h1, hrec]
        simp [List.filter_cons, hd]
      · have h1 : nonKeyCells (d :: ds) (x :: xs) = x :: nonKeyCells ds xs := by
          simp [nonKeyCells, List.filter_cons, hd]
        rw [h1]
        simp [List.filter_cons, hd, hrec]

/-! ## Lemmas about the string ordering and `sortStrings` -/

/-- `strLt` decides the lexicographic order on character lists. -/
theorem strLt_iff (as bs : List Char) : strLt as bs = true ↔ as < bs := by
  induction as generalizing bs with
  | nil =>
    cases bs with
    | nil =>
      simp only [strLt, Bool.false_eq_true, false_iff]
      intro h
      cases h
    | cons b bs =>
      simp only [strLt, true_iff]
      exact List.Lex.nil
  | cons a as ih =>
    cases bs with
    | nil =>
      simp only [strLt, Bool.false_eq_true, false_iff]
      intro h
      cases h
    | cons b bs =>
      simp only [strLt]
      by_cases hab : a < b
      · simp only [hab, if_pos, true_iff]
        exact List.Lex.rel hab
      · rw [if_neg hab]
        by_cases hba : b < a
        · simp only [hba, if_pos, Bool.false_eq_true, false_iff]
          intro h
          cases h with
          | rel h => exact hab h
          | cons h => exact lt_irrefl a hba
        · rw [if_neg hba, ih]
          have hab' : a = b := le_antisymm (le_of_not_lt hba) (le_of_not_lt hab)
          subst hab'
          constructor
          · intro h
            exact List.Lex.cons h
          · intro h
            cases h with
            | rel h => exact absurd h hab
            | cons h => exact h

/-- `strLt` on the character data decides the order on strings. -/
theorem strLt_data_iff (a b : String) : strLt a.data b.data = true ↔ a < b := by
  rw [strLt_iff]
  exact (String.lt_iff_toList_lt).symm

theorem strLt_false_le {a b : String} (h : ¬ strLt a.data b.data = true) :
    b ≤ a :=
  le_of_not_lt (fun hlt => h ((strLt_data_iff a b).mpr hlt))

theorem insertSorted_perm (x : String) (l : List String) :
    List.Perm (insertSorted x l) (x :: l) := by
  induction l with
  | nil => exact List.Perm.refl _
  | cons y ys ih =>
    simp only [insertSorted]
    split
    · exact List.Perm.refl _
    · exact (ih.cons y).trans (List.Perm.swap x y ys)

theorem sortStrings_perm (l : List String) : List.Perm (sortStrings l) l := by
  induction l with
  | nil => exact List.Perm.refl _
  | cons x xs ih =>
    exact (insertSorted_perm x (sortStrings xs)).trans (ih.cons x)

theorem insertSorted_sorted {x : String} {l : List String}
    (hs : l.Sorted (· ≤ ·)) : (insertSorted x l).Sorted (· ≤ ·) := by
  induction l with
  | nil => simp [insertSorted]
  | cons y ys ih =>
    simp only [insertSorted]
    rw [List.sorted_cons] at hs
    split
    · rename_i hlt
      have hxy : x ≤ y := le_of_lt ((strLt_data_iff x y).mp hlt)
      rw [List.sorted_cons]
      refine ⟨?_, List.sorted_cons.mpr hs⟩
      intro b hb
      cases List.mem_cons.mp hb with
      | inl h => exact h ▸ hxy
      | inr h => exact le_trans hxy (hs.1 b h)
    · rename_i hnlt
      have hyx : y ≤ x := strLt_false_le hnlt
      rw [List.sorted_cons]
      refine ⟨?_, ih hs.2⟩
      intro b hb
      have hb' : b ∈ x :: ys := (insertSorted_perm x ys).mem_iff.mp hb
      cases List.mem_cons.mp hb' with
      | inl h => exact h ▸ hyx
      | inr h => exact hs.1 b h

theorem sortStrings_sorted (l : List String) :
    (sortStrings l).Sorted (· ≤ ·) := by
  induction l with
  | nil => simp [sortStrings]
  | cons x xs ih => exact insertSorted_sorted ih

/-- On a list without duplicates, sortedness for `≤` gives sortedness for the
strict order. -/
theorem sorted_strict_of_nodup {l : List String}
    (hs : l.Sorted (· ≤ ·)) (hn : l.Nodup) : l.Sorted (· < ·) := by
  induction l with
  | nil => simp
  | cons x xs ih =>
    rw [List.sorted_cons] at hs ⊢
    rw [List.nodup_cons] at hn
    refine ⟨?_, ih hs.2 hn.2⟩
    intro b hb
    exact lt_of_le_of_ne (hs.1 b hb) (fun h => hn.1 (h ▸ hb))

/-! ## Lemmas about the directory scan -/

/-- The skip notices printed by a scan, one per `.csv` file lacking a
`"Source"` column, in scan order. -/
def skipMessages (entries : List DirEntry) : List String :=
  (entries.filter (fun e =>
    strEndsWith e.name ".csv" ∧ "Source" ∉ (read_csv e.content).cols)).map
    (fun e => skipMessage e.name)

theorem step_not_csv {e : DirEntry} (h : ¬ strEndsWith e.name ".csv" = true)
    (st : Option Table × List String) : step st e = st := by
  simp [step, h]

theorem step_skip {e : DirEntry} (h : strEndsWith e.name ".csv" = true)
    (hs : "Source" ∉ (read_csv e.content).cols)
    (st : Option Table × List String) :
    step st e = (st.1, st.2 ++ [skipMessage e.name]) := by
  simp [step, h, hs]

theorem step_first {e : DirEntry} (h : strEndsWith e.name ".csv" = true)
    (hs : "Source" ∈ (read_csv e.content).cols) (msgs : List String) :
    step (none, msgs) e = (some (read_csv e.content), msgs) := by
  simp [step, h, hs]

theorem step_merge {e : DirEntry} (h : strEndsWith e.name ".csv" = true)
    (hs : "Source" ∈ (read_csv e.content).cols) (a : Table) (msgs : List String) :
    step (some a, msgs) e = (some (merge a (read_csv e.content)), msgs) := by
  simp [step, h, hs]

theorem qualifyingTables_cons (e : DirEntry) (es : List DirEntry) :
    qualifyingTables (e :: es) =
      if strEndsWith e.name ".csv" = true then
        (if "Source" ∈ (read_csv e.content).cols then
          read_csv e.content :: qualifyingTables es
        else qualifyingTables es)
      else qualifyingTables es := by
  by_cases h : strEndsWith e.name ".csv" = true
  · by_cases hs : "Source" ∈ (read_csv e.content).cols <;>
      simp [qualifyingTables, List.filter_cons, h, hs]
  · simp [qualifyingTables, List.filter_cons, h]

theorem skipMessages_cons (e : DirEntry) (es : List DirEntry) :
    skipMessages (e :: es) =
      if strEndsWith e.name ".csv" = true then
        (if "Source" ∈ (read_csv e.content).cols then skipMessages es
        else skipMessage e.name :: skipMessages es)
      else skipMessages es := by
  by_cases h : strEndsWith e.name ".csv" = true
  · by_cases hs : "Source" ∈ (read_csv e.content).cols <;>
      simp [skipMessages, List.filter_cons, h, hs]
  · simp [skipMessages, List.filter_cons, h]

/-- The merging fold of `mergeAll`, starting from a given accumulator. -/
def mergeStep (a : Option Table) (t : Table) : Option Table :=
  match a with
  | none => some t
  | some a => some (merge a t)

theorem mergeAll_eq_foldl (ts : List Table) :
    mergeAll ts = ts.foldl mergeStep none := by
  rfl

/-- The loop is the merging fold over the qualifying tables, with the skip
notices appended to the messages. -/
theorem foldl_step_eq (entries : List DirEntry) :
    ∀ acc msgs, List.foldl step (acc, msgs) entries =
      ((qualifyingTables entries).foldl mergeStep acc,
        msgs ++ skipMessages entries) := by
  induction entries with
  | nil => intro acc msgs; simp [qualifyingTables, skipMessages]
  | cons e es ih =>
    intro acc msgs
    rw [List.foldl_cons, qualifyingTables_cons, skipMessages_cons]
    by_cases h : strEndsWith e.name ".csv" = true
    · by_cases hs : "Source" ∈ (read_csv e.content).cols
      · rw [if_pos h, if_pos h, if_pos hs, if_pos hs]
        cases acc with
        | none => rw [step_first h hs, ih]; rfl
        | some a => rw [step_merge h hs, ih]; rfl
      · rw [if_pos h, if_pos h, if_neg hs, if_neg hs, step_skip h hs, ih]
        simp
    · rw [if_neg h, if_neg h, step_not_csv h, ih]

theorem scanDirectory_eq (entries : List DirEntry) :
    scanDirectory entries =
      (mergeAll (qualifyingTables entries), skipMessages entries) := by
  rw [scanDirectory, foldl_step_eq, mergeAll_eq_foldl]
  simp

/-- Entries whose name does not end in `".csv"` have no effect on the scan. -/
theorem scanDirectory_filter_csv (entries : List DirEntry) :
    scanDirectory (entries.filter (fun e => strEndsWith e.name ".csv")) =
      scanDirectory entries := by
  rw [scanDirectory, scanDirectory]
  have : ∀ st, List.foldl step st
      (entries.filter (fun e => strEndsWith e.name ".csv")) =
      List.foldl step st entries := by
    induction entries with
    | nil => intro st; rfl
    | cons e es ih =>
      intro st
      rw [List.filter_cons]
      by_cases h : strEndsWith e.name ".csv" = true
      · simp only [h, if_pos]
        rw [List.foldl_cons, List.foldl_cons, ih]
      · simp only [h, Bool.false_eq_true, if_neg, if_false]
        rw [List.foldl_cons, step_not_csv h, ih]
  exact this (none, [])

theorem run_filter_csv (entries : List DirEntry) :
    run (entries.filter (fun e => strEndsWith e.name ".csv")) = run entries := by
  rw [run, run, scanDirectory_filter_csv]

/-! ## Lemmas about `merge` -/

theorem append_x_ne_Source (c : String) : c ++ "_x" ≠ "Source" := by
  intro h
  have h2 : c.data ++ ['_', 'x'] = ['S', 'o', 'u', 'r', 'c', 'e'] := by
    have h3 := congrArg String.data h
    rw [String.data_append] at h3
    exact h3
  have h4 := congrArg List.reverse h2
  simp [List.reverse_append] at h4

theorem append_y_ne_Source (c : String) : c ++ "_y" ≠ "Source" := by
  intro h
  have h2 : c.data ++ ['_', 'y'] = ['S', 'o', 'u', 'r', 'c', 'e'] := by
    have h3 := congrArg String.data h
    rw [String.data_append] at h3
    exact h3
  have h4 := congrArg List.reverse h2
  simp [List.reverse_append] at h4

/-- The left-column renaming of `merge`. -/
def lsuffix (r : Table) (c : String) : String :=
  if c ≠ "Source" ∧ c ∈ r.cols then c ++ "_x" else c

/-- The right-column renaming of `merge`. -/
def rsuffix (l : Table) (c : String) : String :=
  if c ∈ l.cols then c ++ "_y" else c

theorem lsuffix_eq_Source_iff (r : Table) (c : String) :
    lsuffix r c = "Source" ↔ c = "Source" := by
  unfold lsuffix
  split
  · rename_i h
    exact ⟨fun hx => absurd hx (append_x_ne_Source c), fun hc => absurd hc h.1⟩
  · exact Iff.rfl

theorem merge_cols (l r : Table) :
    (merge l r).cols =
      l.cols.map (lsuffix r) ++
        (r.cols.filter (fun c => c ≠ "Source")).map (rsuffix l) := by
  rfl

/-- When the two tables share no non-key column name, no renaming happens. -/
theorem merge_cols_of_disjoint {l r : Table}
    (hdisj : ∀ c, c ∈ l.cols → c ∈ r.cols → c = "Source") :
    (merge l r).cols = l.cols ++ r.cols.filter (fun c => c ≠ "Source") := by
  rw [merge_cols]
  have h1 : l.cols.map (lsuffix r) = l.cols := by
    have hid : ∀ c ∈ l.cols, lsuffix r c = id c := by
      intro c hc
      unfold lsuffix
      rw [if_neg]
      · rfl
      · rintro ⟨hne, hmem⟩
        exact hne (hdisj c hc hmem)
    rw [List.map_congr_left hid, List.map_id]
  have h2 : (r.cols.filter (fun c => c ≠ "Source")).map (rsuffix l) =
      r.cols.filter (fun c => c ≠ "Source") := by
    have hid : ∀ c ∈ r.cols.filter (fun c => c ≠ "Source"),
        rsuffix l c = id c := by
      intro c hc
      rw [List.mem_filter] at hc
      unfold rsuffix
      rw [if_neg]
      · rfl
      · intro hmem
        have := hdisj c hmem hc.1
        simp [this] at hc
    rw [List.map_congr_left hid, List.map_id]
  rw [h1, h2]

/-- `cellAt` is unchanged by renaming the column names, provided the renaming
does not move the looked-up name. -/
theorem cellAt_map_colnames {σ : String → String} {c' c0 : String}
    (hσ : ∀ c, σ c = c' ↔ c = c0) (cols : List String) (row : List Cell) :
    cellAt (cols.map σ) row c' = cellAt cols row c0 := by
  induction cols generalizing row with
  | nil => rfl
  | cons d ds ih =>
    cases row with
    | nil => rw [cellAt_nil_right, cellAt_nil_right]
    | cons x xs =>
      rw [List.map_cons, cellAt_cons, cellAt_cons]
      by_cases hd : d = c0
      · rw [if_pos ((hσ d).mpr hd), if_pos hd]
      · rw [if_neg (fun h => hd ((hσ d).mp h)), if_neg hd, ih]

/-- The key cell of a row of the form `lrow ++ tail` in the merged column
list is the key cell of `lrow` in the left table. -/
theorem keyOf_merge_left {l r : Table} {lrow : List Cell}
    (hlen : lrow.length = l.cols.length) (hsl : "Source" ∈ l.cols)
    (tail : List Cell) :
    keyOf (merge l r).cols (lrow ++ tail) = keyOf l.cols lrow := by
  rw [merge_cols, keyOf, keyOf]
  rw [cellAt_append_left _ _ (by simpa using hlen)
    (List.mem_map.mpr ⟨"Source", hsl, (lsuffix_eq_Source_iff r "Source").mpr rfl⟩)]
  exact cellAt_map_colnames (lsuffix_eq_Source_iff r) l.cols lrow

/-- The key cell of a right-only row of the merge. -/
theorem keyOf_merge_right {l r : Table} (hsl : "Source" ∈ l.cols)
    (k0 : Cell) (tail : List Cell) :
    keyOf (merge l r).cols
      (l.cols.map (fun c => if c = "Source" then k0 else none) ++ tail) = k0 := by
  rw [merge_cols, keyOf]
  rw [cellAt_append_left _ _ (by simp)
    (List.mem_map.mpr ⟨"Source", hsl, (lsuffix_eq_Source_iff r "Source").mpr rfl⟩)]
  have : ∀ cols : List String, "Source" ∈ cols →
      cellAt (cols.map (lsuffix r))
        (cols.map (fun c => if c = "Source" then k0 else none)) "Source" = k0 := by
    intro cols hmem
    induction cols with
    | nil => cases hmem
    | cons d ds ih =>
      rw [List.map_cons, List.map_cons, cellAt_cons]
      by_cases hd : d = "Source"
      · rw [if_pos ((lsuffix_eq_Source_iff r d).mpr hd), if_pos hd]
      · rw [if_neg (fun h => hd ((lsuffix_eq_Source_iff r d).mp h))]
        exact ih (by
          cases List.mem_cons.mp hmem with
          | inl h => exact absurd h.symm hd
          | inr h => exact h)
  exact this l.cols hsl

theorem find?_eq_head?_filter {α : Type} (p : α → Bool) (l : List α) :
    l.find? p = (l.filter p).head? := by
  induction l with
  | nil => rfl
  | cons x xs ih =>
    rw [List.find?_cons, List.filter_cons]
    cases hp : p x with
    | true => rfl
    | false =>
      rw [ih]
      simp

theorem filter_eq_nil_or_singleton {α β : Type} [DecidableEq β] (f : α → β)
    {l : List α} (h : (l.map f).Nodup) (k : β) :
    l.filter (fun a => f a = k) = [] ∨
      ∃ a, l.filter (fun a => f a = k) = [a] ∧ f a = k := by
  induction l with
  | nil => exact Or.inl rfl
  | cons x xs ih =>
    rw [List.map_cons, List.nodup_cons] at h
    rw [List.filter_cons]
    by_cases hfx : f x = k
    · have hnil : xs.filter (fun a => f a = k) = [] := by
        rw [List.filter_eq_nil_iff]
        intro a ha
        simp only [decide_eq_true_eq]
        intro hak
        exact h.1 (List.mem_map.mpr ⟨a, ha, by rw [hak, hfx]⟩)
      refine Or.inr ⟨x, ?_, hfx⟩
      simp [hfx, hnil]
    · simp only [hfx, decide_False, if_false]
      exact ih h.2

/-- The absent-cell padding appended to an unmatched left row. -/
def joinPad (r : Table) : List Cell :=
  (r.cols.filter (fun c => c ≠ "Source")).map (fun _ => (none : Cell))

/-- The merged row produced from one left row: the left row followed by the
non-key cells of the matching right row, or by padding. -/
def joinRow (l r : Table) (lrow : List Cell) : List Cell :=
  match r.rows.find? (fun rrow => keyOf r.cols rrow = keyOf l.cols lrow) with
  | none => lrow ++ joinPad r
  | some rrow => lrow ++ nonKeyCells r.cols rrow

/-- The right-only row produced from one unmatched right row. -/
def rightRow (l r : Table) (rrow : List Cell) : List Cell :=
  l.cols.map (fun c => if c = "Source" then keyOf r.cols rrow else none)
    ++ nonKeyCells r.cols rrow

/-- When the right key cells are pairwise distinct, each left row produces
exactly one merged row, and the unmatched right rows follow. -/
theorem merge_rows {l r : Table} (hkr : r.keyList.Nodup) :
    (merge l r).rows =
      l.rows.map (joinRow l r) ++
        (r.rows.filter (fun rrow =>
          !(l.rows.any (fun lrow =>
            keyOf l.cols lrow == keyOf r.cols rrow)))).map (rightRow l r) := by
  show (l.rows.flatMap _) ++ _ = _
  congr 1
  have : ∀ rows : List (List Cell),
      rows.flatMap (fun lrow =>
        match r.rows.filter (fun rrow =>
            keyOf r.cols rrow = keyOf l.cols lrow) with
        | [] => [lrow ++ joinPad r]
        | ms => ms.map (fun rrow => lrow ++ nonKeyCells r.cols rrow)) =
      rows.map (joinRow l r) := by
    intro rows
    induction rows with
    | nil => rfl
    | cons lrow rest ih =>
      rw [List.flatMap_cons, List.map_cons, ih]
      congr 1
      rcases filter_eq_nil_or_singleton (keyOf r.cols) hkr
          (keyOf l.cols lrow) with hfil | ⟨a, hfil, _⟩
      · rw [hfil, joinRow, find?_eq_head?_filter, hfil]
        rfl
      · rw [hfil, joinRow, find?_eq_head?_filter, hfil]
        rfl
  exact this l.rows

theorem keyList_filter (r : Table) (p : Cell → Bool) :
    r.keyList.filter p = (r.rows.filter (p ∘ keyOf r.cols)).map (keyOf r.cols) := by
  rw [show r.keyList = r.rows.map (keyOf r.cols) from rfl, List.filter_map]

theorem any_key_eq_mem_keyList (l : Table) (k : Cell) :
    (l.rows.any (fun lrow => keyOf l.cols lrow == k)) =
      decide (k ∈ l.keyList) := by
  rw [Bool.eq_iff_iff, List.any_eq_true, decide_eq_true_eq]
  constructor
  · rintro ⟨lrow, hmem, hbeq⟩
    exact List.mem_map.mpr ⟨lrow, hmem, beq_iff_eq.mp hbeq⟩
  · intro hk
    rcases List.mem_map.mp hk with ⟨lrow, hmem, heq⟩
    exact ⟨lrow, hmem, beq_iff_eq.mpr heq⟩

/-- The keys of a merge: the left keys, then the new right keys, in order. -/
theorem merge_keyList {l r : Table}
    (hal : ∀ row ∈ l.rows, row.length = l.cols.length)
    (hsl : "Source" ∈ l.cols) (hkr : r.keyList.Nodup) :
    (merge l r).keyList =
      l.keyList ++ r.keyList.filter (fun k => ¬ k ∈ l.keyList) := by
  rw [show (merge l r).keyList =
      (merge l r).rows.map (keyOf (merge l r).cols) from rfl,
    merge_rows hkr, List.map_append]
  congr 1
  · rw [List.map_map]
    apply List.map_congr_left
    intro lrow hmem
    show keyOf (merge l r).cols (joinRow l r lrow) = keyOf l.cols lrow
    rcases hfind : r.rows.find? (fun rrow =>
        keyOf r.cols rrow = keyOf l.cols lrow) with _ | a <;>
      simp only [joinRow, hfind] <;>
      exact keyOf_merge_left (hal lrow hmem) hsl _
  · rw [keyList_filter, List.map_map]
    have hpred : (r.rows.filter (fun rrow =>
        !(l.rows.any (fun lrow => keyOf l.cols lrow == keyOf r.cols rrow)))) =
        (r.rows.filter ((fun k => decide (¬ k ∈ l.keyList)) ∘ keyOf r.cols)) := by
      apply List.filter_congr
      intro rrow _
      rw [Function.comp_apply, any_key_eq_mem_keyList]
      rw [Bool.eq_iff_iff]
      simp
    rw [hpred]
    apply List.map_congr_left
    intro rrow _
    show keyOf (merge l r).cols (rightRow l r rrow) = keyOf r.cols rrow
    rw [rightRow]
    exact keyOf_merge_right hsl _ _

theorem find?_congr_mem {α : Type} {p q : α → Bool} {l : List α}
    (h : ∀ a ∈ l, p a = q a) : l.find? p = l.find? q := by
  induction l with
  | nil => rfl
  | cons x xs ih =>
    rw [List.find?_cons, List.find?_cons, h x (List.mem_cons_self x xs),
      ih (fun a ha => h a (List.mem_cons_of_mem x ha))]

theorem find?_filter_of_imp {α : Type} {p q : α → Bool} (l : List α)
    (h : ∀ a, p a = true → q a = true) :
    (l.filter q).find? p = l.find? p := by
  induction l with
  | nil => rfl
  | cons x xs ih =>
    rw [List.filter_cons]
    cases hq : q x with
    | true =>
      rw [if_pos rfl, List.find?_cons, List.find?_cons, ih]
    | false =>
      have hp : p x = false := by
        cases hpx : p x with
        | false => rfl
        | true => rw [h x hpx] at hq; cases hq
      simp only [Bool.false_eq_true, if_false, List.find?_cons, hp, ih]

theorem joinRow_eq_append (l r : Table) (lrow : List Cell) :
    ∃ tail, joinRow l r lrow = lrow ++ tail := by
  rw [joinRow]
  cases r.rows.find? (fun rrow => keyOf r.cols rrow = keyOf l.cols lrow) with
  | none => exact ⟨_, rfl⟩
  | some a => exact ⟨_, rfl⟩

/-- The find-the-row-with-key-`k` search of a merged table restricted to the
joined left rows is the search in the left table. -/
theorem merge_find_left {l r : Table} {k : String}
    (hal : ∀ row ∈ l.rows, row.length = l.cols.length)
    (hsl : "Source" ∈ l.cols) :
    (l.rows.map (joinRow l r)).find?
        (fun row => keyOf (merge l r).cols row = some k) =
      (l.rows.find? (fun lrow => keyOf l.cols lrow = some k)).map
        (joinRow l r) := by
  rw [List.find?_map]
  congr 1
  apply find?_congr_mem
  intro lrow hmem
  rcases joinRow_eq_append l r lrow with ⟨tail, htail⟩
  simp only [Function.comp_apply, htail,
    keyOf_merge_left (hal lrow hmem) hsl tail]

/-- The same search restricted to the right-only rows, assuming no left row
has key `k`. -/
theorem merge_find_right {l r : Table} {k : String}
    (hsl : "Source" ∈ l.cols)
    (hnol : ∀ lrow ∈ l.rows, ¬ keyOf l.cols lrow = some k) :
    ((r.rows.filter (fun rrow =>
        !(l.rows.any (fun lrow =>
          keyOf l.cols lrow == keyOf r.cols rrow)))).map (rightRow l r)).find?
      (fun row => keyOf (merge l r).cols row = some k) =
      (r.rows.find? (fun rrow => keyOf r.cols rrow = some k)).map
        (rightRow l r) := by
  rw [List.find?_map]
  congr 1
  have h1 : ∀ rrow, ((fun row => decide (keyOf (merge l r).cols row = some k)) ∘
      rightRow l r) rrow = decide (keyOf r.cols rrow = some k) := by
    intro rrow
    simp only [Function.comp_apply, rightRow, keyOf_merge_right hsl]
  rw [find?_congr_mem (fun a _ => h1 a)]
  apply find?_filter_of_imp
  intro rrow hp
  rw [decide_eq_true_eq] at hp
  rw [any_key_eq_mem_keyList, Bool.not_eq_true', decide_eq_false_iff_not]
  intro hmem
  rcases List.mem_map.mp hmem with ⟨lrow, hlmem, heq⟩
  exact hnol lrow hlmem (by rw [heq, hp])

/-- Looking up a left non-key column in a merged table is looking it up in
the left table, when the tables share no non-key column name. -/
theorem merge_lookup_left {l r : Table} {k c : String}
    (hal : ∀ row ∈ l.rows, row.length = l.cols.length)
    (hsl : "Source" ∈ l.cols)
    (hkr : r.keyList.Nodup)
    (hdisj : ∀ c0, c0 ∈ l.cols → c0 ∈ r.cols → c0 = "Source")
    (hc : c ∈ l.cols) (hck : c ≠ "Source") :
    (merge l r).lookup k c = l.lookup k c := by
  rw [Table.lookup, Table.lookup, merge_rows hkr, List.find?_append,
    merge_find_left hal hsl]
  cases hfl : l.rows.find? (fun lrow => keyOf l.cols lrow = some k) with
  | some lrow₀ =>
    rcases joinRow_eq_append l r lrow₀ with ⟨tail, htail⟩
    simp only [Option.map_some', Option.or]
    rw [htail, merge_cols_of_disjoint hdisj,
      cellAt_append_left _ _ (hal lrow₀ (List.mem_of_find?_eq_some hfl)) hc]
  | none =>
    simp only [Option.map_none', Option.none_or]
    have hnol : ∀ lrow ∈ l.rows, ¬ keyOf l.cols lrow = some k := by
      intro lrow hmem heq
      have := List.find?_eq_none.mp hfl lrow hmem
      simp [heq] at this
    rw [merge_find_right hsl hnol]
    cases hfr : r.rows.find? (fun rrow => keyOf r.cols rrow = some k) with
    | some rrow₀ =>
      simp only [Option.map_some']
      rw [rightRow, merge_cols_of_disjoint hdisj,
        cellAt_append_left _ _ (by simp) hc, cellAt_map_cols _ hc,
        if_neg hck]
    | none => simp only [Option.map_none']

/-- Looking up a right non-key column in a merged table is looking it up in
the right table, when the tables share no non-key column name. -/
theorem merge_lookup_right {l r : Table} {k c : String}
    (hal : ∀ row ∈ l.rows, row.length = l.cols.length)
    (hsl : "Source" ∈ l.cols)
    (hkr : r.keyList.Nodup)
    (hdisj : ∀ c0, c0 ∈ l.cols → c0 ∈ r.cols → c0 = "Source")
    (hc : c ∈ r.cols) (hck : c ≠ "Source") :
    (merge l r).lookup k c = r.lookup k c := by
  have hcl : c ∉ l.cols := fun hl => hck (hdisj c hl hc)
  have hcf : c ∈ r.cols.filter (fun c => c ≠ "Source") :=
    List.mem_filter.mpr ⟨hc, by simp [hck]⟩
  rw [Table.lookup, Table.lookup, merge_rows hkr, List.find?_append,
    merge_find_left hal hsl]
  cases hfl : l.rows.find? (fun lrow => keyOf l.cols lrow = some k) with
  | some lrow₀ =>
    have hk₀ : keyOf l.cols lrow₀ = some k := by
      have := List.find?_some hfl
      simpa using this
    have hlen₀ : lrow₀.length = l.cols.length :=
      hal lrow₀ (List.mem_of_find?_eq_some hfl)
    simp only [Option.map_some', Option.or]
    rw [joinRow, find?_eq_head?_filter]
    have hfilcong : r.rows.filter
        (fun rrow => keyOf r.cols rrow = keyOf l.cols lrow₀) =
        r.rows.filter (fun rrow => keyOf r.cols rrow = some k) := by
      apply List.filter_congr
      intro rrow _
      rw [hk₀]
    rw [hfilcong, ← find?_eq_head?_filter]
    cases hfr : r.rows.find? (fun rrow => keyOf r.cols rrow = some k) with
    | some rrow₀ =>
      rw [merge_cols_of_disjoint hdisj,
        cellAt_append_right _ _ hlen₀ hcl, cellAt_nonKeyCells hck]
    | none =>
      rw [merge_cols_of_disjoint hdisj,
        cellAt_append_right _ _ hlen₀ hcl, joinPad, cellAt_map_cols _ hcf]
  | none =>
    simp only [Option.map_none', Option.none_or]
    have hnol : ∀ lrow ∈ l.rows, ¬ keyOf l.cols lrow = some k := by
      intro lrow hmem heq
      have := List.find?_eq_none.mp hfl lrow hmem
      simp [heq] at this
    rw [merge_find_right hsl hnol]
    cases hfr : r.rows.find? (fun rrow => keyOf r.cols rrow = some k) with
    | some rrow₀ =>
      simp only [Option.map_some']
      rw [rightRow, merge_cols_of_disjoint hdisj,
        cellAt_append_right _ _ (by simp) hcl, cellAt_nonKeyCells hck]
    | none => simp only [Option.map_none']

theorem nonKeyCells_mem {cols : List String} {row : List Cell} {x : Cell}
    (hx : x ∈ nonKeyCells cols row) : x ∈ row := by
  rcases List.mem_map.mp hx with ⟨p, hp, rfl⟩
  exact (List.of_mem_zip (List.mem_filter.mp hp).1).2

theorem cellAt_eq_none_or_mem (cols : List String) (row : List Cell)
    (c : String) : cellAt cols row c = none ∨ cellAt cols row c ∈ row := by
  induction cols generalizing row with
  | nil => exact Or.inl rfl
  | cons d ds ih =>
    cases row with
    | nil => exact Or.inl (cellAt_nil_right _ _)
    | cons x xs =>
      rw [cellAt_cons]
      by_cases hd : d = c
      · rw [if_pos hd]
        exact Or.inr (List.mem_cons_self _ _)
      · rw [if_neg hd]
        rcases ih xs with h | h
        · exact Or.inl h
        · exact Or.inr (List.mem_cons_of_mem _ h)

/-- Every cell of a merged table is either absent or comes from a row of one
of the two inputs. -/
theorem merge_cell_provenance {l r : Table} {row : List Cell} {x : Cell}
    (hrow : row ∈ (merge l r).rows) (hx : x ∈ row) :
    x = none ∨ (∃ lrow ∈ l.rows, x ∈ lrow) ∨ ∃ rrow ∈ r.rows, x ∈ rrow := by
  have hrow' : row ∈
      (l.rows.flatMap (fun lrow =>
        match r.rows.filter (fun rrow =>
            keyOf r.cols rrow = keyOf l.cols lrow) with
        | [] => [lrow ++ joinPad r]
        | ms => ms.map (fun rrow => lrow ++ nonKeyCells r.cols rrow))) ++
      ((r.rows.filter (fun rrow =>
          !(l.rows.any (fun lrow =>
            keyOf l.cols lrow == keyOf r.cols rrow)))).map (rightRow l r)) :=
    hrow
  rcases List.mem_append.mp hrow' with h | h
  · rcases List.mem_flatMap.mp h with ⟨lrow, hlmem, hblock⟩
    rcases hm : r.rows.filter (fun rrow =>
        keyOf r.cols rrow = keyOf l.cols lrow) with _ | ⟨rrow0, ms⟩
    · rw [hm] at hblock
      simp only [List.mem_singleton] at hblock
      subst hblock
      rcases List.mem_append.mp hx with hxl | hxp
      · exact Or.inr (Or.inl ⟨lrow, hlmem, hxl⟩)
      · rcases List.mem_map.mp hxp with ⟨_, _, rfl⟩
        exact Or.inl rfl
    · rw [hm] at hblock
      rcases List.mem_map.mp hblock with ⟨rrow, hrmem, rfl⟩
      have hrmem' : rrow ∈ r.rows := by
        have : rrow ∈ r.rows.filter (fun rrow =>
            keyOf r.cols rrow = keyOf l.cols lrow) := hm ▸ hrmem
        exact (List.mem_filter.mp this).1
      rcases List.mem_append.mp hx with hxl | hxr
      · exact Or.inr (Or.inl ⟨lrow, hlmem, hxl⟩)
      · exact Or.inr (Or.inr ⟨rrow, hrmem', nonKeyCells_mem hxr⟩)
  · rcases List.mem_map.mp h with ⟨rrow, hrmem, rfl⟩
    have hrmem' : rrow ∈ r.rows := (List.mem_filter.mp hrmem).1
    rcases List.mem_append.mp hx with hxl | hxr
    · rcases List.mem_map.mp hxl with ⟨c, _, rfl⟩
      by_cases hcs : c = "Source"
      · rw [if_pos hcs]
        rcases cellAt_eq_none_or_mem r.cols rrow "Source" with hn | hmem
        · exact Or.inl hn
        · exact Or.inr (Or.inr ⟨rrow, hrmem', hmem⟩)
      · rw [if_neg hcs]
        exact Or.inl rfl
    · exact Or.inr (Or.inr ⟨rrow, hrmem', nonKeyCells_mem hxr⟩)

/-- A merge of aligned tables is aligned. -/
theorem merge_aligned {l r : Table}
    (hal : ∀ row ∈ l.rows, row.length = l.cols.length)
    (har : ∀ row ∈ r.rows, row.length = r.cols.length) :
    ∀ row ∈ (merge l r).rows, row.length = (merge l r).cols.length := by
  intro row hrow
  have hclen : (merge l r).cols.length =
      l.cols.length + (r.cols.filter (fun c => c ≠ "Source")).length := by
    rw [merge_cols]
    simp
  have hrow' : row ∈
      (l.rows.flatMap (fun lrow =>
        match r.rows.filter (fun rrow =>
            keyOf r.cols rrow = keyOf l.cols lrow) with
        | [] => [lrow ++ joinPad r]
        | ms => ms.map (fun rrow => lrow ++ nonKeyCells r.cols rrow))) ++
      ((r.rows.filter (fun rrow =>
          !(l.rows.any (fun lrow =>
            keyOf l.cols lrow == keyOf r.cols rrow)))).map (rightRow l r)) :=
    hrow
  rw [hclen]
  rcases List.mem_append.mp hrow' with h | h
  · rcases List.mem_flatMap.mp h with ⟨lrow, hlmem, hblock⟩
    rcases hm : r.rows.filter (fun rrow =>
        keyOf r.cols rrow = keyOf l.cols lrow) with _ | ⟨rrow0, ms⟩
    · rw [hm] at hblock
      simp only [List.mem_singleton] at hblock
      subst hblock
      rw [List.length_append, hal lrow hlmem, joinPad, List.length_map]
    · rw [hm] at hblock
      rcases List.mem_map.mp hblock with ⟨rrow, hrmem, rfl⟩
      have hrmem' : rrow ∈ r.rows := by
        have : rrow ∈ r.rows.filter (fun rrow =>
            keyOf r.cols rrow = keyOf l.cols lrow) := hm ▸ hrmem
        exact (List.mem_filter.mp this).1
      rw [List.length_append, hal lrow hlmem,
        length_nonKeyCells (har rrow hrmem')]
  · rcases List.mem_map.mp h with ⟨rrow, hrmem, rfl⟩
    have hrmem' : rrow ∈ r.rows := (List.mem_filter.mp hrmem).1
    rw [rightRow, List.length_append, List.length_map,
      length_nonKeyCells (har rrow hrmem')]

/-- A merge of tables with distinct column names and no shared non-key
column name has distinct column names. -/
theorem merge_cols_nodup {l r : Table}
    (hnl : l.cols.Nodup) (hnr : r.cols.Nodup)
    (hdisj : ∀ c0, c0 ∈ l.cols → c0 ∈ r.cols → c0 = "Source") :
    (merge l r).cols.Nodup := by
  rw [merge_cols_of_disjoint hdisj]
  rw [List.nodup_append]
  refine ⟨hnl, hnr.filter _, ?_⟩
  intro c hcl hcf
  have hcr := List.mem_filter.mp hcf
  have := hdisj c hcl hcr.1
  simp [this] at hcr

/-! ## The invariant of the merging fold -/

theorem cellAt_mem_of_aligned {cols : List String} {row : List Cell}
    {c : String} (hc : c ∈ cols) (hlen : row.length = cols.length) :
    cellAt cols row c ∈ row := by
  induction cols generalizing row with
  | nil => cases hc
  | cons d ds ih =>
    cases row with
    | nil => simp at hlen
    | cons x xs =>
      rw [cellAt_cons]
      by_cases hd : d = c
      · rw [if_pos hd]
        exact List.mem_cons_self _ _
      · rw [if_neg hd]
        have hc' : c ∈ ds := by
          cases List.mem_cons.mp hc with
          | inl h => exact absurd h.symm hd
          | inr h => exact h
        exact List.mem_cons_of_mem _ (ih hc' (by simpa using hlen))

/-- The keys of a well-formed table are present values. -/
theorem Table.Wf.keysPresent {t : Table} (h : t.Wf) :
    ∀ k ∈ t.keyList, k ≠ none := by
  intro k hk
  rcases List.mem_map.mp hk with ⟨row, hrow, rfl⟩
  exact h.cellsPresent row hrow _
    (cellAt_mem_of_aligned h.sourceMem (h.aligned row hrow))

/-- The invariant carried through the merging fold: what the accumulated
table looks like after the tables of `ts` have been folded in. -/
structure Inv (ts : List Table) (A : Table) : Prop where
  aligned : ∀ row ∈ A.rows, row.length = A.cols.length
  colsNodup : A.cols.Nodup
  sourceMem : "Source" ∈ A.cols
  colsChar : ∀ c, c ∈ A.cols ↔ ∃ t ∈ ts, c ∈ t.cols
  keysChar : ∀ k : Cell, k ∈ A.keyList ↔ ∃ t ∈ ts, k ∈ t.keyList
  keysNodup : A.keyList.Nodup
  cellChar : ∀ t ∈ ts, ∀ c, c ∈ t.cols → c ≠ "Source" → ∀ k,
    A.lookup k c = t.lookup k c

/-- The invariant holds for a single well-formed table. -/
theorem Inv.base {t : Table} (h : t.Wf) : Inv [t] t where
  aligned := h.aligned
  colsNodup := h.colsNodup
  sourceMem := h.sourceMem
  colsChar := by intro c; simp
  keysChar := by intro k; simp
  keysNodup := h.keysNodup
  cellChar := by
    intro t' ht' c _ _ k
    rcases List.mem_singleton.mp ht' with rfl
    rfl

/-- One step of the fold preserves the invariant. -/
theorem Inv.step {ts₀ : List Table} {A t : Table}
    (inv : Inv ts₀ A) (hwf : t.Wf)
    (hdisj : ∀ t' ∈ ts₀, ∀ c, c ∈ t'.cols → c ∈ t.cols → c = "Source") :
    Inv (ts₀ ++ [t]) (merge A t) := by
  have hdA : ∀ c, c ∈ A.cols → c ∈ t.cols → c = "Source" := by
    intro c hca hct
    rcases (inv.colsChar c).mp hca with ⟨t', ht', hc'⟩
    exact hdisj t' ht' c hc' hct
  have hkeys := merge_keyList inv.aligned inv.sourceMem hwf.keysNodup
  refine ⟨merge_aligned inv.aligned hwf.aligned,
    merge_cols_nodup inv.colsNodup hwf.colsNodup hdA, ?_, ?_, ?_, ?_, ?_⟩
  · rw [merge_cols_of_disjoint hdA]
    exact List.mem_append_left _ inv.sourceMem
  · intro c
    rw [merge_cols_of_disjoint hdA, List.mem_append, inv.colsChar,
      List.mem_filter]
    constructor
    · rintro (⟨t', ht', hc'⟩ | ⟨hct, _⟩)
      · exact ⟨t', List.mem_append_left _ ht', hc'⟩
      · exact ⟨t, List.mem_append_right _ (List.mem_singleton.mpr rfl), hct⟩
    · rintro ⟨t', ht', hc'⟩
      rcases List.mem_append.mp ht' with h0 | h1
      · exact Or.inl ⟨t', h0, hc'⟩
      · rcases List.mem_singleton.mp h1 with rfl
        by_cases hcs : c = "Source"
        · exact Or.inl (by
            rcases (inv.colsChar "Source").mp inv.sourceMem with ⟨t0, ht0, h0⟩
            exact ⟨t0, ht0, hcs ▸ h0⟩)
        · exact Or.inr ⟨hc', by simp [hcs]⟩
  · intro k
    rw [hkeys, List.mem_append, inv.keysChar, List.mem_filter]
    constructor
    · rintro (⟨t', ht', hk'⟩ | ⟨hkt, _⟩)
      · exact ⟨t', List.mem_append_left _ ht', hk'⟩
      · exact ⟨t, List.mem_append_right _ (List.mem_singleton.mpr rfl), hkt⟩
    · rintro ⟨t', ht', hk'⟩
      rcases List.mem_append.mp ht' with h0 | h1
      · exact Or.inl ⟨t', h0, hk'⟩
      · rcases List.mem_singleton.mp h1 with rfl
        by_cases hkA : k ∈ A.keyList
        · exact Or.inl ((inv.keysChar k).mp hkA |>.imp
            (fun t0 h => h))
        · exact Or.inr ⟨hk', by simpa using hkA⟩
  · rw [hkeys]
    rw [List.nodup_append]
    refine ⟨inv.keysNodup, hwf.keysNodup.filter _, ?_⟩
    intro k hkA hkf
    have := List.mem_filter.mp hkf
    simp only [decide_eq_true_eq] at this
    exact this.2 hkA
  · intro t' ht' c hc' hck k
    rcases List.mem_append.mp ht' with h0 | h1
    · have hcA : c ∈ A.cols := (inv.colsChar c).mpr ⟨t', h0, hc'⟩
      rw [merge_lookup_left inv.aligned inv.sourceMem hwf.keysNodup hdA
        hcA hck]
      exact inv.cellChar t' h0 c hc' hck k
    · rcases List.mem_singleton.mp h1 with rfl
      exact merge_lookup_right inv.aligned inv.sourceMem hwf.keysNodup hdA
        hc' hck

/-- The merging fold establishes the invariant. -/
theorem foldl_mergeStep_inv (ts : List Table) :
    ∀ (ts₀ : List Table) (A B : Table),
    Inv ts₀ A →
    (∀ t ∈ ts, t.Wf) →
    DisjointCols (ts₀ ++ ts) →
    List.foldl mergeStep (some A) ts = some B →
    Inv (ts₀ ++ ts) B := by
  induction ts with
  | nil =>
    intro ts₀ A B hinv _ _ hfold
    rw [List.foldl_nil] at hfold
    cases hfold
    rw [List.append_nil]
    exact hinv
  | cons t ts ih =>
    intro ts₀ A B hinv hwf hdisj hfold
    rw [List.foldl_cons] at hfold
    have hdisj' : DisjointCols ((ts₀ ++ [t]) ++ ts) := by
      rw [List.append_assoc, List.singleton_append]
      exact hdisj
    have hstep : Inv (ts₀ ++ [t]) (merge A t) := by
      apply hinv.step (hwf t (List.mem_cons_self t ts))
      intro t' ht' c hc1 hc2
      rw [DisjointCols, List.pairwise_append] at hdisj
      exact hdisj.2.2 t' ht' t (List.mem_cons_self t ts) c hc1 hc2
    have := ih (ts₀ ++ [t]) (merge A t) B hstep
      (fun u hu => hwf u (List.mem_cons_of_mem t hu)) hdisj' hfold
    rw [List.append_assoc, List.singleton_append] at this
    exact this

/-- The invariant for `mergeAll` on a non-empty list of well-formed,
column-disjoint tables. -/
theorem mergeAll_inv {ts : List Table} {A : Table}
    (hwf : ∀ t ∈ ts, t.Wf) (hdisj : DisjointCols ts)
    (hA : mergeAll ts = some A) : Inv ts A := by
  cases ts with
  | nil => cases hA
  | cons t ts =>
    rw [mergeAll_eq_foldl, List.foldl_cons] at hA
    have hbase : Inv [t] t := Inv.base (hwf t (List.mem_cons_self t ts))
    have := foldl_mergeStep_inv ts [t] t A hbase
      (fun u hu => hwf u (List.mem_cons_of_mem t hu))
      (by rw [List.singleton_append]; exact hdisj) hA
    rw [List.singleton_append] at this
    exact this

/-! ## Preservation of cell values, and the fill / reindex steps -/

theorem merge_NoNA {l r : Table} (hl : l.NoNA) (hr : r.NoNA) :
    (merge l r).NoNA := by
  intro row hrow x hx
  rcases merge_cell_provenance hrow hx with rfl | ⟨lrow, hm, hxm⟩ | ⟨rrow, hm, hxm⟩
  · exact fun h => Option.noConfusion h
  · exact hl lrow hm x hxm
  · exact hr rrow hm x hxm

theorem foldl_mergeStep_NoNA (ts : List Table) :
    ∀ A B : Table, A.NoNA → (∀ t ∈ ts, t.NoNA) →
    List.foldl mergeStep (some A) ts = some B → B.NoNA := by
  induction ts with
  | nil =>
    intro A B hA _ hfold
    rw [List.foldl_nil] at hfold
    cases hfold
    exact hA
  | cons t ts ih =>
    intro A B hA hts hfold
    rw [List.foldl_cons] at hfold
    exact ih (merge A t) B
      (merge_NoNA hA (hts t (List.mem_cons_self t ts)))
      (fun u hu => hts u (List.mem_cons_of_mem t hu)) hfold

theorem mergeAll_NoNA {ts : List Table} {A : Table}
    (h : ∀ t ∈ ts, t.NoNA) (hA : mergeAll ts = some A) : A.NoNA := by
  cases ts with
  | nil => cases hA
  | cons t ts =>
    rw [mergeAll_eq_foldl, List.foldl_cons] at hA
    exact foldl_mergeStep_NoNA ts t A (h t (List.mem_cons_self t ts))
      (fun u hu => h u (List.mem_cons_of_mem t hu)) hA

/-- A lookup result is absent or one of the table's cells. -/
theorem lookup_mem_or_none (A : Table) (k c : String) :
    A.lookup k c = none ∨ ∃ row ∈ A.rows, A.lookup k c ∈ row := by
  rw [Table.lookup]
  cases hfind : A.rows.find? (fun r => keyOf A.cols r = some k) with
  | none => exact Or.inl rfl
  | some row₀ =>
    rcases cellAt_eq_none_or_mem A.cols row₀ c with h | h
    · exact Or.inl h
    · exact Or.inr ⟨row₀, List.mem_of_find?_eq_some hfind, h⟩

/-- In a well-formed table, a lookup at an existing column misses exactly
when the key is not present. -/
theorem Table.Wf.lookup_eq_none_iff {t : Table} {k c : String} (h : t.Wf)
    (hc : c ∈ t.cols) : t.lookup k c = none ↔ some k ∉ t.keyList := by
  rw [Table.lookup]
  cases hfind : t.rows.find? (fun r => keyOf t.cols r = some k) with
  | none =>
    simp only [true_iff]
    intro hk
    rcases List.mem_map.mp hk with ⟨row, hrow, hkey⟩
    have := List.find?_eq_none.mp hfind row hrow
    simp [hkey] at this
  | some row₀ =>
    have hmem := List.mem_of_find?_eq_some hfind
    have hcell : cellAt t.cols row₀ c ∈ row₀ :=
      cellAt_mem_of_aligned hc (h.aligned row₀ hmem)
    have hne : cellAt t.cols row₀ c ≠ none := h.cellsPresent row₀ hmem _ hcell
    have hkey : keyOf t.cols row₀ = some k := by
      have := List.find?_some hfind
      simpa using this
    constructor
    · intro hnone
      exact absurd hnone hne
    · intro hk
      exact absurd (List.mem_map.mpr ⟨row₀, hmem, hkey⟩) hk

/-- The filled key cell of an aligned row with a present key is unchanged. -/
theorem keyOf_fillna_row {A : Table} {row : List Cell}
    (hrow : row ∈ A.rows)
    (hal : ∀ row ∈ A.rows, row.length = A.cols.length)
    (hsrc : "Source" ∈ A.cols)
    (hknn : ∀ k ∈ A.keyList, k ≠ none) :
    keyOf A.cols (row.map (fun x => some (x.getD "N/A"))) =
      keyOf A.cols row := by
  simp only [keyOf]
  rw [cellAt_map_row _ (hal row hrow) hsrc]
  have hk : cellAt A.cols row "Source" ≠ none := by
    have := hknn _ (List.mem_map.mpr ⟨row, hrow, rfl⟩)
    simpa [keyOf] using this
  cases hkey : cellAt A.cols row "Source" with
  | none => exact absurd hkey hk
  | some v => rfl

/-- Filling preserves the key cells when all keys are present values. -/
theorem fillna_keyList {A : Table}
    (hal : ∀ row ∈ A.rows, row.length = A.cols.length)
    (hsrc : "Source" ∈ A.cols)
    (hknn : ∀ k ∈ A.keyList, k ≠ none) :
    (fillna A).keyList = A.keyList := by
  rw [show (fillna A).keyList = (A.rows.map (fun row =>
      row.map (fun x => some (x.getD "N/A")))).map (keyOf A.cols) from rfl,
    List.map_map, show A.keyList = A.rows.map (keyOf A.cols) from rfl]
  apply List.map_congr_left
  intro row hrow
  simp only [Function.comp_apply]
  exact keyOf_fillna_row hrow hal hsrc hknn

/-- The search for the row with a given key is unchanged by filling. -/
theorem fillna_find? {A : Table} (k : String)
    (hal : ∀ row ∈ A.rows, row.length = A.cols.length)
    (hsrc : "Source" ∈ A.cols)
    (hknn : ∀ k' ∈ A.keyList, k' ≠ none) :
    (fillna A).rows.find? (fun r => keyOf (fillna A).cols r = some k) =
      Option.map (fun row => row.map (fun x => some (x.getD "N/A")))
        (A.rows.find? (fun row => keyOf A.cols row = some k)) := by
  rw [show (fillna A).rows = A.rows.map (fun row =>
      row.map (fun x => some (x.getD "N/A"))) from rfl, List.find?_map]
  congr 1
  apply find?_congr_mem
  intro row hrow
  simp only [Function.comp_apply]
  rw [show (fillna A).cols = A.cols from rfl,
    keyOf_fillna_row hrow hal hsrc hknn]

/-- Looking up a present key in the filled table gives the filled cell. -/
theorem lookup_fillna {A : Table} {k c : String}
    (hal : ∀ row ∈ A.rows, row.length = A.cols.length)
    (hsrc : "Source" ∈ A.cols)
    (hknn : ∀ k' ∈ A.keyList, k' ≠ none)
    (hc : c ∈ A.cols) (hk : some k ∈ A.keyList) :
    (fillna A).lookup k c = some ((A.lookup k c).getD "N/A") := by
  rw [Table.lookup, Table.lookup, fillna_find? k hal hsrc hknn]
  cases hfind : A.rows.find? (fun row => keyOf A.cols row = some k) with
  | none =>
    exfalso
    rcases List.mem_map.mp hk with ⟨row, hrow, hkey⟩
    have := List.find?_eq_none.mp hfind row hrow
    simp [hkey] at this
  | some row₀ =>
    simp only [Option.map_some']
    rw [show (fillna A).cols = A.cols from rfl,
      cellAt_map_row _ (hal row₀ (List.mem_of_find?_eq_some hfind)) hc]

/-- Membership in the computed column order. -/
theorem mem_column_order {cols : List String} {c : String} :
    c ∈ column_order cols ↔ c = "Source" ∨ (c ∈ cols ∧ c ≠ "Source") := by
  rw [column_order, List.mem_cons]
  constructor
  · rintro (rfl | h)
    · exact Or.inl rfl
    · have := (sortStrings_perm _).mem_iff.mp h
      rw [List.mem_filter] at this
      exact Or.inr ⟨this.1, by simpa using this.2⟩
  · rintro (rfl | ⟨hc, hck⟩)
    · exact Or.inl rfl
    · exact Or.inr ((sortStrings_perm _).mem_iff.mpr
        (List.mem_filter.mpr ⟨hc, by simpa using hck⟩))

theorem source_mem_column_order (cols : List String) :
    "Source" ∈ column_order cols :=
  mem_column_order.mpr (Or.inl rfl)

/-- The key cell of a reindexed row. -/
theorem keyOf_reindex_row (T : Table) (row : List Cell) :
    keyOf (column_order T.cols)
      ((column_order T.cols).map (fun c => cellAt T.cols row c)) =
      keyOf T.cols row := by
  rw [keyOf, cellAt_map_cols _ (source_mem_column_order T.cols)]
  rfl

/-- Reindexing by the computed column order preserves the key cells. -/
theorem reindex_keyList (T : Table) : (reindex T).keyList = T.keyList := by
  rw [show (reindex T).keyList = (T.rows.map (fun row =>
      (column_order T.cols).map (fun c => cellAt T.cols row c))).map
      (keyOf (column_order T.cols)) from rfl,
    List.map_map, show T.keyList = T.rows.map (keyOf T.cols) from rfl]
  apply List.map_congr_left
  intro row _
  simp only [Function.comp_apply]
  exact keyOf_reindex_row T row

/-- The search for the row with a given key is unchanged by reindexing. -/
theorem reindex_find? (T : Table) (k : String) :
    (reindex T).rows.find? (fun r => keyOf (reindex T).cols r = some k) =
      Option.map (fun row =>
        (column_order T.cols).map (fun c => cellAt T.cols row c))
        (T.rows.find? (fun row => keyOf T.cols row = some k)) := by
  rw [show (reindex T).rows = T.rows.map (fun row =>
      (column_order T.cols).map (fun c => cellAt T.cols row c)) from rfl,
    List.find?_map]
  refine congrArg (Option.map _) (find?_congr_mem ?_)
  intro row _
  simp only [Function.comp_apply]
  rw [show (reindex T).cols = column_order T.cols from rfl,
    keyOf_reindex_row T row]

/-- Reindexing by the computed column order preserves lookups at columns of
the computed order. -/
theorem lookup_reindex {T : Table} {k c : String}
    (hc : c ∈ column_order T.cols) :
    (reindex T).lookup k c = T.lookup k c := by
  rw [Table.lookup, Table.lookup, reindex_find?]
  cases hfind : T.rows.find? (fun row => keyOf T.cols row = some k) with
  | none => rfl
  | some row₀ =>
    simp only [Option.map_some']
    rw [show (reindex T).cols = column_order T.cols from rfl,
      cellAt_map_cols _ hc]

/-! ## Lemmas about the printed messages and the serialized text -/

theorem skipMessage_ne_completionMessage (n : String) :
    skipMessage n ≠ completionMessage := by
  intro h
  have hlen : "'Source' column not found in ".data.length = 29 := by decide
  have h1 : (skipMessage n).data[1]? = some 'S' := by
    show ((("'Source' column not found in " ++ n) ++
      ". Skipping this file.").data)[1]? = some 'S'
    rw [String.data_append, String.data_append,
      List.getElem?_append_left (by rw [List.length_append, hlen]; omega),
      List.getElem?_append_left (by rw [hlen]; omega)]
    decide
  have h2 : completionMessage.data[1]? = some 'e' := by decide
  rw [h, h2] at h1
  cases h1

theorem skipMessage_inj {a b : String}
    (h : skipMessage a = skipMessage b) : a = b := by
  have h2 := congrArg String.data h
  rw [show (skipMessage a).data = ("'Source' column not found in ".data ++
      a.data) ++ ". Skipping this file.".data by
    rw [skipMessage, String.data_append, String.data_append],
    show (skipMessage b).data = ("'Source' column not found in ".data ++
      b.data) ++ ". Skipping this file.".data by
    rw [skipMessage, String.data_append, String.data_append]] at h2
  have h3 := List.append_cancel_right h2
  have h4 := List.append_cancel_left h3
  cases a
  cases b
  exact congrArg String.mk h4

/-- The filename occurs inside its skip notice. -/
theorem name_infix_skipMessage (n : String) :
    List.IsInfix n.data (skipMessage n).data :=
  ⟨"'Source' column not found in ".data, ". Skipping this file.".data, by
    rw [skipMessage, String.data_append, String.data_append]⟩

theorem string_mk_data (s : String) : String.mk s.data = s := rfl

theorem joinSep_data (sep : String) :
    ∀ (a : String) (l : List String),
    (joinSep sep (a :: l)).data =
      a.data ++ l.flatMap (fun x => sep.data ++ x.data) := by
  intro a l
  induction l generalizing a with
  | nil => simp [joinSep]
  | cons b bs ih =>
    rw [show joinSep sep (a :: b :: bs) = a ++ sep ++ joinSep sep (b :: bs)
        from rfl,
      String.data_append, String.data_append, ih b, List.flatMap_cons,
      List.append_assoc, List.append_assoc]

theorem mem_joinSep_data {sep : String} {cols : List String} {ch : Char}
    (h : ch ∈ (joinSep sep cols).data) :
    ch ∈ sep.data ∨ ∃ c ∈ cols, ch ∈ c.data := by
  induction cols with
  | nil => cases h
  | cons a l ih =>
    rw [joinSep_data] at h
    rcases List.mem_append.mp h with ha | hrest
    · exact Or.inr ⟨a, List.mem_cons_self a l, ha⟩
    · rcases List.mem_flatMap.mp hrest with ⟨x, hx, hchx⟩
      rcases List.mem_append.mp hchx with hs | hxx
      · exact Or.inl hs
      · exact Or.inr ⟨x, List.mem_cons_of_mem a hx, hxx⟩

theorem takeWhile_eq_self_of_all {p : Char → Bool} {l : List Char}
    (h : ∀ ch ∈ l, p ch = true) : l.takeWhile p = l := by
  induction l with
  | nil => rfl
  | cons c cs ih =>
    rw [List.takeWhile_cons, h c (List.mem_cons_self c cs),
      ih (fun ch hch => h ch (List.mem_cons_of_mem c hch))]
    simp

theorem takeWhile_append_head_false {p : Char → Bool} {l1 : List Char}
    (h : ∀ ch ∈ l1, p ch = true) {c : Char} (hc : p c = false)
    (l2 : List Char) : (l1 ++ c :: l2).takeWhile p = l1 := by
  induction l1 with
  | nil => simp [List.takeWhile_cons, hc]
  | cons d ds ih =>
    rw [List.cons_append, List.takeWhile_cons, h d (List.mem_cons_self d ds),
      ih (fun ch hch => h ch (List.mem_cons_of_mem d hch))]
    simp

/-- The first line of a string: everything before the first newline. -/
def firstLine (s : String) : String :=
  String.mk (s.data.takeWhile (fun ch => ch ≠ '\n'))

/-- When no column name contains a newline, the first line of the serialized
output is the comma-joined header. -/
theorem firstLine_to_csv {T : Table}
    (hnl : ∀ c ∈ T.cols, ('\n') ∉ c.data) :
    firstLine (to_csv T) = joinSep "," T.cols := by
  have hhead : ∀ ch ∈ (joinSep "," T.cols).data, (ch ≠ '\n' : Bool) = true := by
    intro ch hch
    rcases mem_joinSep_data hch with hs | ⟨c, hc, hchc⟩
    · have hch2 : ch = ',' := by simpa using hs
      subst hch2
      decide
    · simp only [ne_eq, decide_eq_true_eq]
      intro hEq
      exact hnl c hc (hEq ▸ hchc)
  rw [firstLine, to_csv]
  cases hrows : T.rows.map (fun row => joinSep "," (row.map
      (fun x => x.getD ""))) with
  | nil =>
    rw [show joinSep "\n" [joinSep "," T.cols] = joinSep "," T.cols from rfl,
      takeWhile_eq_self_of_all hhead, string_mk_data]
  | cons rl rest =>
    have hl2 : (("\n" : String).data ++ rl.data) ++
        rest.flatMap (fun x => ("\n" : String).data ++ x.data) =
        '\n' :: (rl.data ++
          rest.flatMap (fun x => ("\n" : String).data ++ x.data)) := by
      rw [show ("\n" : String).data = ['\n'] from rfl]
      simp
    rw [joinSep_data, List.flatMap_cons, hl2,
      takeWhile_append_head_false hhead (by decide), string_mk_data]

/-! ## Further lemmas about qualifying tables -/

theorem qualifyingTables_eq_nil {entries : List DirEntry}
    (h : ∀ e ∈ entries, strEndsWith e.name ".csv" = false ∨
      "Source" ∉ (read_csv e.content).cols) :
    qualifyingTables entries = [] := by
  induction entries with
  | nil => rfl
  | cons e es ih =>
    rw [qualifyingTables_cons]
    have hrec := ih (fun f hf => h f (List.mem_cons_of_mem e hf))
    rcases h e (List.mem_cons_self e es) with h1 | h1
    · rw [if_neg (by simp [h1]), hrec]
    · by_cases hcsv : strEndsWith e.name ".csv" = true
      · rw [if_pos hcsv, if_neg h1, hrec]
      · rw [if_neg hcsv, hrec]

theorem qualifyingTables_filter {p : DirEntry → Bool} {entries : List DirEntry}
    (h : ∀ e ∈ entries, p e = false → strEndsWith e.name ".csv" = false ∨
      "Source" ∉ (read_csv e.content).cols) :
    qualifyingTables (entries.filter p) = qualifyingTables entries := by
  induction entries with
  | nil => rfl
  | cons e es ih =>
    rw [List.filter_cons]
    have hrec := ih (fun f hf hpf => h f (List.mem_cons_of_mem e hf) hpf)
    by_cases hp : p e = true
    · rw [if_pos hp, qualifyingTables_cons, qualifyingTables_cons, hrec]
    · rw [if_neg hp]
      have hfalse : p e = false := by
        cases hpe : p e
        · rfl
        · exact absurd hpe hp
      rcases h e (List.mem_cons_self e es) hfalse with h1 | h1
      · rw [qualifyingTables_cons, if_neg (by simp [h1]), hrec]
      · rw [qualifyingTables_cons]
        by_cases hcsv : strEndsWith e.name ".csv" = true
        · rw [if_pos hcsv, if_neg h1, hrec]
        · rw [if_neg hcsv, hrec]

theorem forall_mem_pair {P : Table → Prop} {a b : Table} (ha : P a)
    (hb : P b) : ∀ t ∈ [a, b], P t := by
  intro t ht
  rcases List.mem_cons.mp ht with rfl | ht2
  · exact ha
  · rcases List.mem_singleton.mp ht2 with rfl
    exact hb

/-! ## The claims -/

/-- C3: on the spec's concrete example — `a.csv` holding
`Source,Lat\nX,10\nY,20` and `b.csv` holding `Source,Thr\nX,5\nZ,7` — the
program writes exactly `Source,Lat,Thr\nX,10,5\nY,20,N/A\nZ,N/A,7`, each
present input value serialized as the text it had in its input file, and
prints the completion message. -/
theorem C3_example_run :
    run [⟨"a.csv", "Source,Lat\nX,10\nY,20"⟩,
      ⟨"b.csv", "Source,Thr\nX,5\nZ,7"⟩] =
    some ("Source,Lat,Thr\nX,10,5\nY,20,N/A\nZ,N/A,7",
      [completionMessage]) := by
  decide

/-- C4: when the directory has no entry ending in `".csv"`, or every such
file lacks a `"Source"` column, the accumulator is still `None` at the fill
step, the run aborts with an unhandled error and no output is written
(modelled as `run = none`). -/
theorem C4_no_qualifying_crash (entries : List DirEntry)
    (h : ∀ e ∈ entries, strEndsWith e.name ".csv" = false ∨
      "Source" ∉ (read_csv e.content).cols) :
    run entries = none := by
  rw [run, scanDirectory_eq, qualifyingTables_eq_nil h]
  rfl

theorem C4_witness :
    run [⟨"notes.txt", "hello"⟩, ⟨"data.csv", "A,B\n1,2"⟩] = none :=
  C4_no_qualifying_crash _ (by decide)

/-- C9: an entry is processed if and only if its name ends in the exact
suffix `".csv"`: an entry failing the (case-sensitive) suffix test leaves the
loop state unchanged, the whole run only depends on the entries passing the
test, and `"data.CSV"` fails the test. -/
theorem C9_csv_suffix_filter :
    (∀ (st : Option Table × List String) (e : DirEntry),
      ¬ strEndsWith e.name ".csv" = true → step st e = st) ∧
    (∀ entries : List DirEntry,
      run (entries.filter (fun e => strEndsWith e.name ".csv")) = run entries) ∧
    strEndsWith "data.CSV" ".csv" = false := by
  refine ⟨?_, run_filter_csv, by decide⟩
  intro st e h
  exact step_not_csv h st

theorem C9_witness :
    step ((none : Option Table), ([] : List String))
      ⟨"data.CSV", "Source,Lat\nX,1"⟩ =
      ((none : Option Table), ([] : List String)) :=
  C9_csv_suffix_filter.1 _ _ (by decide)

/-- C8 counterexample: two enumeration orders of the same directory contents
(a permutation) produce different output bytes, so the output is not a
function of the directory's contents alone. -/
theorem C8_counterexample :
    List.Perm
      [(⟨"a.csv", "Source,A\nX,10"⟩ : DirEntry), ⟨"b.csv", "Source,B\nY,20"⟩]
      [⟨"b.csv", "Source,B\nY,20"⟩, ⟨"a.csv", "Source,A\nX,10"⟩] ∧
    run [(⟨"a.csv", "Source,A\nX,10"⟩ : DirEntry),
        ⟨"b.csv", "Source,B\nY,20"⟩] ≠
      run [⟨"b.csv", "Source,B\nY,20"⟩, ⟨"a.csv", "Source,A\nX,10"⟩] := by
  constructor
  · decide
  · decide

/-- C8 (amended): the run is a deterministic function of the enumerated
sequence of entries — two runs that enumerate the same `.csv` entries in the
same order produce byte-identical output; entries not ending in `".csv"`
never matter. -/
theorem C8_deterministic (e₁ e₂ : List DirEntry)
    (h : e₁.filter (fun e => strEndsWith e.name ".csv") =
      e₂.filter (fun e => strEndsWith e.name ".csv")) :
    run e₁ = run e₂ := by
  rw [← run_filter_csv e₁, h, run_filter_csv]

theorem C8_witness :
    run [(⟨"readme.txt", "hi"⟩ : DirEntry), ⟨"a.csv", "Source,A\nX,1"⟩] =
      run [⟨"a.csv", "Source,A\nX,1"⟩] :=
  C8_deterministic _ _ (by decide)

/-- C5: for every run that produces an output (over well-formed, column
disjoint qualifying inputs), the written table's header begins with
`"Source"` and the remaining header names are in strictly ascending
lexicographic order. -/
theorem C5_sorted_header (entries : List DirEntry) (A : Table)
    (msgs : List String)
    (hwf : ∀ t ∈ qualifyingTables entries, t.Wf)
    (hdisj : DisjointCols (qualifyingTables entries))
    (hscan : scanDirectory entries = (some A, msgs)) :
    run entries = some (to_csv (reindex (fillna A)),
      msgs ++ [completionMessage]) ∧
    (reindex (fillna A)).cols.head? = some "Source" ∧
    List.Sorted (fun a b => a < b) (reindex (fillna A)).cols.tail := by
  have hA : mergeAll (qualifyingTables entries) = some A :=
    congrArg Prod.fst ((scanDirectory_eq entries).symm.trans hscan)
  have inv := mergeAll_inv hwf hdisj hA
  refine ⟨by rw [run, hscan], rfl, ?_⟩
  show List.Sorted (fun a b => a < b)
    (sortStrings (A.cols.filter (fun c => c ≠ "Source")))
  exact sorted_strict_of_nodup (sortStrings_sorted _)
    (((sortStrings_perm _).nodup_iff).mpr (inv.colsNodup.filter _))

theorem C5_witness :
    (reindex (fillna (⟨["Source", "Lat", "Thr"],
      [[some "X", some "10", none], [some "Y", none, some "5"]]⟩ :
        Table))).cols.head? = some "Source" ∧
    List.Sorted (fun a b => a < b)
      (reindex (fillna (⟨["Source", "Lat", "Thr"],
        [[some "X", some "10", none], [some "Y", none, some "5"]]⟩ :
          Table))).cols.tail := by
  have h := C5_sorted_header
    [⟨"a.csv", "Source,Lat\nX,10"⟩, ⟨"b.csv", "Source,Thr\nY,5"⟩]
    ⟨["Source", "Lat", "Thr"],
      [[some "X", some "10", none], [some "Y", none, some "5"]]⟩
    []
    (by
      have hq : qualifyingTables
          [⟨"a.csv", "Source,Lat\nX,10"⟩, ⟨"b.csv", "Source,Thr\nY,5"⟩] =
          [⟨["Source", "Lat"], [[some "X", some "10"]]⟩,
           ⟨["Source", "Thr"], [[some "Y", some "5"]]⟩] := by decide
      rw [hq]
      exact forall_mem_pair
        ⟨by decide, by decide, by decide, by decide, by decide⟩
        ⟨by decide, by decide, by decide, by decide, by decide⟩)
    (by
      have hq : qualifyingTables
          [⟨"a.csv", "Source,Lat\nX,10"⟩, ⟨"b.csv", "Source,Thr\nY,5"⟩] =
          [⟨["Source", "Lat"], [[some "X", some "10"]]⟩,
           ⟨["Source", "Thr"], [[some "Y", some "5"]]⟩] := by decide
      rw [hq]
      decide)
    (by decide)
  exact ⟨h.2.1, h.2.2⟩

/-- C6: a `.csv` file that parses but has no `"Source"` column leaves the
accumulator unchanged and only appends its skip notice (the run continues),
the whole run prints exactly one skip notice containing that file's name,
and dropping the file from the listing does not change the accumulated
table. -/
theorem C6_skip_behavior (entries : List DirEntry) (e : DirEntry)
    (hnodup : (entries.map (fun f => f.name)).Nodup)
    (hmem : e ∈ entries)
    (hcsv : strEndsWith e.name ".csv" = true)
    (hnos : "Source" ∉ (read_csv e.content).cols) :
    (∀ st : Option Table × List String,
      step st e = (st.1, st.2 ++ [skipMessage e.name])) ∧
    (scanDirectory entries).2.count (skipMessage e.name) = 1 ∧
    List.IsInfix e.name.data (skipMessage e.name).data ∧
    (scanDirectory entries).1 =
      (scanDirectory (entries.filter (fun f => f.name ≠ e.name))).1 := by
  refine ⟨fun st => step_skip hcsv hnos st, ?_,
    name_infix_skipMessage e.name, ?_⟩
  · rw [scanDirectory_eq]
    show ((entries.filter (fun f => strEndsWith f.name ".csv" ∧
      "Source" ∉ (read_csv f.content).cols)).map
        (fun f => skipMessage f.name)).countP
      (fun m => m == skipMessage e.name) = 1
    rw [List.countP_map]
    have hcong : List.countP ((fun m => m == skipMessage e.name) ∘
        (fun f : DirEntry => skipMessage f.name))
        (entries.filter (fun f => strEndsWith f.name ".csv" ∧
          "Source" ∉ (read_csv f.content).cols)) =
        List.countP (fun f : DirEntry => f.name == e.name)
        (entries.filter (fun f => strEndsWith f.name ".csv" ∧
          "Source" ∉ (read_csv f.content).cols)) := by
      apply List.countP_congr
      intro f _
      simp only [Function.comp_apply, beq_iff_eq]
      exact ⟨skipMessage_inj, fun h => by rw [h]⟩
    rw [hcong]
    have hle : List.countP (fun f : DirEntry => f.name == e.name)
        (entries.filter (fun f => strEndsWith f.name ".csv" ∧
          "Source" ∉ (read_csv f.content).cols)) ≤
        List.countP (fun f : DirEntry => f.name == e.name) entries :=
      (List.filter_sublist entries).countP_le _
    have hcount : List.countP (fun f : DirEntry => f.name == e.name)
        entries = 1 := by
      have h1 : List.countP (fun f : DirEntry => f.name == e.name) entries =
          (entries.map (fun f => f.name)).count e.name := by
        rw [show (entries.map (fun f => f.name)).count e.name =
          (entries.map (fun f => f.name)).countP
            (fun x => x == e.name) from rfl, List.countP_map]
        rfl
      rw [h1]
      exact List.count_eq_one_of_mem hnodup
        (List.mem_map.mpr ⟨e, hmem, rfl⟩)
    have hpos : 0 < List.countP (fun f : DirEntry => f.name == e.name)
        (entries.filter (fun f => strEndsWith f.name ".csv" ∧
          "Source" ∉ (read_csv f.content).cols)) :=
      List.countP_pos_iff.mpr
        ⟨e, List.mem_filter.mpr ⟨hmem, by simp [hcsv, hnos]⟩, by simp⟩
    omega
  · rw [scanDirectory_eq, scanDirectory_eq]
    show mergeAll (qualifyingTables entries) =
      mergeAll (qualifyingTables (entries.filter (fun f => f.name ≠ e.name)))
    rw [qualifyingTables_filter]
    intro f hf hpf
    have hfe : f.name = e.name := by simpa using hpf
    have hfeq : f = e := List.inj_on_of_nodup_map hnodup hf hmem hfe
    subst hfeq
    exact Or.inr hnos

theorem C6_witness :
    step ((none : Option Table), ([] : List String))
      ⟨"b.csv", "A,B\n1,2"⟩ =
      ((none : Option Table), [skipMessage "b.csv"]) ∧
    (scanDirectory [⟨"a.csv", "Source,Lat\nX,1"⟩,
      ⟨"b.csv", "A,B\n1,2"⟩]).2.count (skipMessage "b.csv") = 1 := by
  have h := C6_skip_behavior
    [⟨"a.csv", "Source,Lat\nX,1"⟩, ⟨"b.csv", "A,B\n1,2"⟩]
    ⟨"b.csv", "A,B\n1,2"⟩ (by decide) (by decide) (by decide) (by decide)
  exact ⟨h.1 (none, []), h.2.1⟩

/-- C10: every completing run writes the serialization of the filled,
reindexed table — comma-separated text whose first line is the comma-joined
computed column order (no index column is added) — and prints the messages
with the completion message exactly once, at the end. -/
theorem C10_output_shape (entries : List DirEntry) (A : Table)
    (msgs0 : List String)
    (hscan : scanDirectory entries = (some A, msgs0))
    (hnl : ∀ c ∈ A.cols, ('\n') ∉ c.data) :
    run entries = some (to_csv (reindex (fillna A)),
      msgs0 ++ [completionMessage]) ∧
    (reindex (fillna A)).cols = column_order A.cols ∧
    firstLine (to_csv (reindex (fillna A))) =
      joinSep "," (column_order A.cols) ∧
    (msgs0 ++ [completionMessage]).count completionMessage = 1 ∧
    (msgs0 ++ [completionMessage]).getLast? = some completionMessage := by
  have hmsgs : msgs0 = skipMessages entries :=
    (congrArg Prod.snd ((scanDirectory_eq entries).symm.trans hscan)).symm
  refine ⟨by rw [run, hscan], rfl, ?_, ?_, List.getLast?_concat _⟩
  · apply firstLine_to_csv
    intro c hc
    have hc' : c ∈ column_order A.cols := hc
    rcases mem_column_order.mp hc' with rfl | ⟨hcA, _⟩
    · decide
    · exact hnl c hcA
  · rw [List.count_append]
    have h0 : msgs0.count completionMessage = 0 := by
      rw [List.count_eq_zero]
      intro hmemc
      rw [hmsgs] at hmemc
      rcases List.mem_map.mp hmemc with ⟨f, _, hEq⟩
      exact skipMessage_ne_completionMessage f.name hEq
    rw [h0]
    simp

theorem C10_witness :
    run [(⟨"a.csv", "Source,Lat\nX,10"⟩ : DirEntry)] =
      some (to_csv (reindex (fillna
        (⟨["Source", "Lat"], [[some "X", some "10"]]⟩ : Table))),
        [] ++ [completionMessage]) ∧
    firstLine (to_csv (reindex (fillna
      (⟨["Source", "Lat"], [[some "X", some "10"]]⟩ : Table)))) =
      joinSep "," (column_order ["Source", "Lat"]) := by
  have h := C10_output_shape [⟨"a.csv", "Source,Lat\nX,10"⟩]
    ⟨["Source", "Lat"], [[some "X", some "10"]]⟩ [] (by decide) (by decide)
  exact ⟨h.1, h.2.2.1⟩

/-- C2: every distinct `"Source"` value appearing in any qualifying input
file appears exactly once as a row of the output table — the output key
cells are pairwise distinct and are exactly the keys occurring in the
qualifying inputs — for well-formed, column-disjoint inputs. -/
theorem C2_keys_exactly_once (entries : List DirEntry) (A : Table)
    (msgs : List String)
    (hwf : ∀ t ∈ qualifyingTables entries, t.Wf)
    (hdisj : DisjointCols (qualifyingTables entries))
    (hscan : scanDirectory entries = (some A, msgs)) :
    (reindex (fillna A)).keyList.Nodup ∧
    ∀ k : String, some k ∈ (reindex (fillna A)).keyList ↔
      ∃ t ∈ qualifyingTables entries, some k ∈ t.keyList := by
  have hA : mergeAll (qualifyingTables entries) = some A :=
    congrArg Prod.fst ((scanDirectory_eq entries).symm.trans hscan)
  have inv := mergeAll_inv hwf hdisj hA
  have hknn : ∀ k ∈ A.keyList, k ≠ none := by
    intro k hk
    rcases (inv.keysChar k).mp hk with ⟨t, ht, hkt⟩
    exact (hwf t ht).keysPresent k hkt
  have hkeys : (reindex (fillna A)).keyList = A.keyList := by
    rw [reindex_keyList, fillna_keyList inv.aligned inv.sourceMem hknn]
  rw [hkeys]
  exact ⟨inv.keysNodup, fun k => inv.keysChar (some k)⟩

theorem C2_witness :
    (reindex (fillna (⟨["Source", "Lat", "Thr"],
      [[some "X", some "10", some "5"], [some "Y", some "20", none],
       [some "Z", none, some "7"]]⟩ : Table))).keyList.Nodup ∧
    (some "Z" ∈ (reindex (fillna (⟨["Source", "Lat", "Thr"],
      [[some "X", some "10", some "5"], [some "Y", some "20", none],
       [some "Z", none, some "7"]]⟩ : Table))).keyList ↔
      ∃ t ∈ qualifyingTables [⟨"a.csv", "Source,Lat\nX,10\nY,20"⟩,
        ⟨"b.csv", "Source,Thr\nX,5\nZ,7"⟩], some "Z" ∈ t.keyList) := by
  have h := C2_keys_exactly_once
    [⟨"a.csv", "Source,Lat\nX,10\nY,20"⟩, ⟨"b.csv", "Source,Thr\nX,5\nZ,7"⟩]
    ⟨["Source", "Lat", "Thr"],
      [[some "X", some "10", some "5"], [some "Y", some "20", none],
       [some "Z", none, some "7"]]⟩ []
    (by
      have hq : qualifyingTables [⟨"a.csv", "Source,Lat\nX,10\nY,20"⟩,
          ⟨"b.csv", "Source,Thr\nX,5\nZ,7"⟩] =
          [⟨["Source", "Lat"], [[some "X", some "10"], [some "Y", some "20"]]⟩,
           ⟨["Source", "Thr"], [[some "X", some "5"], [some "Z", some "7"]]⟩] := by
        decide
      rw [hq]
      exact forall_mem_pair
        ⟨by decide, by decide, by decide, by decide, by decide⟩
        ⟨by decide, by decide, by decide, by decide, by decide⟩)
    (by
      have hq : qualifyingTables [⟨"a.csv", "Source,Lat\nX,10\nY,20"⟩,
          ⟨"b.csv", "Source,Thr\nX,5\nZ,7"⟩] =
          [⟨["Source", "Lat"], [[some "X", some "10"], [some "Y", some "20"]]⟩,
           ⟨["Source", "Thr"], [[some "X", some "5"], [some "Z", some "7"]]⟩] := by
        decide
      rw [hq]
      decide)
    (by decide)
  exact ⟨h.1, h.2 "Z"⟩

/-- C1 counterexample: with the single input file `a.csv` holding
`Source,Lat\nX,N/A`, the output cell at row `X`, column `Lat` holds the
string `"N/A"` although the input file containing column `Lat` also
contained the `"Source"` value `X` — the claimed equivalence fails when an
input cell holds the literal text `N/A`. -/
theorem C1_counterexample :
    (scanDirectory [⟨"a.csv", "Source,Lat\nX,N/A"⟩]).1.map
      (fun A => (reindex (fillna A)).lookup "X" "Lat") = some (some "N/A") ∧
    "Lat" ∈ (read_csv "Source,Lat\nX,N/A").cols ∧
    some "X" ∈ (read_csv "Source,Lat\nX,N/A").keyList := by
  decide

/-- C1 (amended): provided no input cell holds the literal string `"N/A"`
(and inputs are well-formed and column-disjoint), an output cell holds
`"N/A"` if and only if no qualifying input file containing that cell's
column also contained that row's `"Source"` value — the fill step turns
exactly the join-induced absent cells into `"N/A"`. -/
theorem C1_na_iff (entries : List DirEntry) (A : Table) (msgs : List String)
    (hwf : ∀ t ∈ qualifyingTables entries, t.Wf)
    (hdisj : DisjointCols (qualifyingTables entries))
    (hna : ∀ t ∈ qualifyingTables entries, t.NoNA)
    (hscan : scanDirectory entries = (some A, msgs))
    (k c : String) (hk : some k ∈ A.keyList) (hc : c ∈ A.cols)
    (hck : c ≠ "Source") :
    (reindex (fillna A)).lookup k c = some "N/A" ↔
      ∀ t ∈ qualifyingTables entries, c ∈ t.cols → some k ∉ t.keyList := by
  have hA : mergeAll (qualifyingTables entries) = some A :=
    congrArg Prod.fst ((scanDirectory_eq entries).symm.trans hscan)
  have inv := mergeAll_inv hwf hdisj hA
  have hAna : A.NoNA := mergeAll_NoNA hna hA
  have hknn : ∀ k' ∈ A.keyList, k' ≠ none := by
    intro k' hk'
    rcases (inv.keysChar k').mp hk' with ⟨t, ht, hkt⟩
    exact (hwf t ht).keysPresent k' hkt
  have hcord : c ∈ column_order (fillna A).cols :=
    mem_column_order.mpr (Or.inr ⟨hc, hck⟩)
  rw [lookup_reindex hcord,
    lookup_fillna inv.aligned inv.sourceMem hknn hc hk]
  have hnotNA : A.lookup k c ≠ some "N/A" := by
    rcases lookup_mem_or_none A k c with h | ⟨row, hrow, hm⟩
    · rw [h]
      exact fun hh => Option.noConfusion hh
    · exact hAna row hrow _ hm
  have hlhs : (some ((A.lookup k c).getD "N/A") = some "N/A") ↔
      A.lookup k c = none := by
    cases hcase : A.lookup k c with
    | none => simp
    | some v =>
      have hvne : v ≠ "N/A" := fun hv => hnotNA (by rw [hcase, hv])
      simp [hvne]
  rw [hlhs]
  constructor
  · intro hnone t ht hct hkt
    have hcell := inv.cellChar t ht c hct hck k
    rw [hnone] at hcell
    exact ((hwf t ht).lookup_eq_none_iff hct).mp hcell.symm hkt
  · intro hall
    rcases (inv.colsChar c).mp hc with ⟨t₀, ht₀, hc₀⟩
    rw [inv.cellChar t₀ ht₀ c hc₀ hck k]
    exact ((hwf t₀ ht₀).lookup_eq_none_iff hc₀).mpr (hall t₀ ht₀ hc₀)

theorem C1_witness :
    (reindex (fillna (⟨["Source", "Lat", "Thr"],
      [[some "X", some "10", some "5"], [some "Y", some "20", none],
       [some "Z", none, some "7"]]⟩ : Table))).lookup "Y" "Thr" =
        some "N/A" ↔
      ∀ t ∈ qualifyingTables [⟨"a.csv", "Source,Lat\nX,10\nY,20"⟩,
        ⟨"b.csv", "Source,Thr\nX,5\nZ,7"⟩],
        "Thr" ∈ t.cols → some "Y" ∉ t.keyList := by
  have hq : qualifyingTables [⟨"a.csv", "Source,Lat\nX,10\nY,20"⟩,
      ⟨"b.csv", "Source,Thr\nX,5\nZ,7"⟩] =
      [⟨["Source", "Lat"], [[some "X", some "10"], [some "Y", some "20"]]⟩,
       ⟨["Source", "Thr"], [[some "X", some "5"], [some "Z", some "7"]]⟩] := by
    decide
  exact C1_na_iff
    [⟨"a.csv", "Source,Lat\nX,10\nY,20"⟩, ⟨"b.csv", "Source,Thr\nX,5\nZ,7"⟩]
    ⟨["Source", "Lat", "Thr"],
      [[some "X", some "10", some "5"], [some "Y", some "20", none],
       [some "Z", none, some "7"]]⟩ []
    (by
      rw [hq]
      exact forall_mem_pair
        ⟨by decide, by decide, by decide, by decide, by decide⟩
        ⟨by decide, by decide, by decide, by decide, by decide⟩)
    (by rw [hq]; decide)
    (by rw [hq]; decide)
    (by decide) "Y" "Thr" (by decide) (by decide) (by decide)

/-- C7: after a merge step the accumulator's keys are the union of both
sides' keys (left keys in order, then the new right keys); for a key present
on one side only, the other side's non-key columns are absent in that row
(for column-disjoint tables); a non-key column name occurring on both sides
yields the suffixed duplicate columns; and the loop initializes the
accumulator with the first qualifying table and merges once per subsequent
qualifying table. -/
theorem C7_merge_invariants (l r : Table) (hl : l.Wf) (hr : r.Wf) :
    ((merge l r).keyList =
        l.keyList ++ r.keyList.filter (fun k => ¬ k ∈ l.keyList) ∧
      ∀ k : Cell, k ∈ (merge l r).keyList ↔
        k ∈ l.keyList ∨ k ∈ r.keyList) ∧
    (∀ k : String, some k ∈ l.keyList → some k ∉ r.keyList →
      (∀ c0 ∈ l.cols, c0 ∈ r.cols → c0 = "Source") →
      ∀ c ∈ r.cols, c ≠ "Source" → (merge l r).lookup k c = none) ∧
    (∀ k : String, some k ∈ r.keyList → some k ∉ l.keyList →
      (∀ c0 ∈ l.cols, c0 ∈ r.cols → c0 = "Source") →
      ∀ c ∈ l.cols, c ≠ "Source" → (merge l r).lookup k c = none) ∧
    (∀ c ∈ l.cols, c ∈ r.cols → c ≠ "Source" →
      (c ++ "_x") ∈ (merge l r).cols ∧ (c ++ "_y") ∈ (merge l r).cols) ∧
    (∀ e : DirEntry, strEndsWith e.name ".csv" = true →
      "Source" ∈ (read_csv e.content).cols →
      (∀ msgs, step (none, msgs) e = (some (read_csv e.content), msgs)) ∧
      (∀ a msgs, step (some a, msgs) e =
        (some (merge a (read_csv e.content)), msgs))) := by
  have hkeys := merge_keyList hl.aligned hl.sourceMem hr.keysNodup
  refine ⟨⟨hkeys, ?_⟩, ?_, ?_, ?_, ?_⟩
  · intro k
    rw [hkeys, List.mem_append, List.mem_filter]
    constructor
    · rintro (h | ⟨h, _⟩)
      · exact Or.inl h
      · exact Or.inr h
    · rintro (h | h)
      · exact Or.inl h
      · by_cases hkl : k ∈ l.keyList
        · exact Or.inl hkl
        · exact Or.inr ⟨h, by simpa using hkl⟩
  · intro k _ hkr hdisj c hc hck
    rw [merge_lookup_right hl.aligned hl.sourceMem hr.keysNodup hdisj hc hck]
    exact (hr.lookup_eq_none_iff hc).mpr hkr
  · intro k _ hkl hdisj c hc hck
    rw [merge_lookup_left hl.aligned hl.sourceMem hr.keysNodup hdisj hc hck]
    exact (hl.lookup_eq_none_iff hc).mpr hkl
  · intro c hcl hcr hck
    rw [merge_cols]
    constructor
    · exact List.mem_append_left _ (List.mem_map.mpr
        ⟨c, hcl, by rw [lsuffix, if_pos ⟨hck, hcr⟩]⟩)
    · exact List.mem_append_right _ (List.mem_map.mpr
        ⟨c, List.mem_filter.mpr ⟨hcr, by simp [hck]⟩,
          by rw [rsuffix, if_pos hcl]⟩)
  · intro e hcsv hsrc
    exact ⟨fun msgs => step_first hcsv hsrc msgs,
      fun a msgs => step_merge hcsv hsrc a msgs⟩

theorem C7_witness :
    (merge (⟨["Source", "Lat"], [[some "X", some "1"]]⟩ : Table)
        (⟨["Source", "Thr"], [[some "Y", some "2"]]⟩ : Table)).keyList =
      (⟨["Source", "Lat"], [[some "X", some "1"]]⟩ : Table).keyList ++
        (⟨["Source", "Thr"], [[some "Y", some "2"]]⟩ :
          Table).keyList.filter (fun k => ¬ k ∈
            (⟨["Source", "Lat"], [[some "X", some "1"]]⟩ : Table).keyList) ∧
    (merge (⟨["Source", "Lat"], [[some "X", some "1"]]⟩ : Table)
      (⟨["Source", "Thr"], [[some "Y", some "2"]]⟩ : Table)).lookup
        "X" "Thr" = none := by
  have h := C7_merge_invariants
    ⟨["Source", "Lat"], [[some "X", some "1"]]⟩
    ⟨["Source", "Thr"], [[some "Y", some "2"]]⟩
    ⟨by decide, by decide, by decide, by decide, by decide⟩
    ⟨by decide, by decide, by decide, by decide, by decide⟩
  exact ⟨h.1.1, h.2.1 "X" (by decide) (by decide) (by decide) "Thr"
    (by decide) (by decide)⟩

end MergeCsv
